import Mathlib

/-!
Verification of the spinajs/di dependency-injection container
(src/container.ts, second revision of the Container class, together with
src/decorators.ts, src/interfaces.ts and src/enums.ts).

The TypeScript code is shallowly embedded as follows.

State: a program runs a forest of containers.  A container (class Container)
owns a registry (a JS Map from a service identifier to the ordered list of
registered producers) and a cache (a JS Map from a string name to a resolved
value), plus an optional parent pointer.  Containers are identified by their
index in a global list; child() appends a fresh container whose parent index
is the creating container, mirroring that JS children hold a reference to the
parent and lookups only ever walk upward.

Identifiers and producers: JS compares classes by object identity and caches
by name string.  The model identifies a class by its name and keeps one
global table (the program) of class definitions; all theorems that need it
assume distinct classes have distinct names, which is how the library is
used.  A producer is a class or a factory function; a factory is modelled as
an opaque constructor of fresh instances of a fixed product class (the
repository factories receive the container and return a new object).

Descriptors: lines 490-492 of container.ts read the DI_DESCRIPTION_SYMBOL
property from the producer or its prototype and fall back to the default
descriptor.  In the container model a class carries the outcome of that
symbol lookup directly (field descr); the lookup itself, across the
inheritance chain, is modelled separately (JLevel and extractDescriptorChain
below) for the descriptor-extraction claim.

Instances and hooks: a constructed instance is a pair of its class name and a
globally fresh uid, so distinctness of instances is uid-distinctness.  Every
construction is recorded in an event log together with the hook kind of the
class (whether it extends ResolveStrategy or AsyncResolveStrategy).  The
single-threaded promise machinery is collapsed sequentially: a resolution
result carries a deferred flag that is true exactly where the JS function
returns a Promise.  Recursion through the dependency graph uses fuel; a run
that exhausts its fuel (for example an uncached dependency cycle, which in JS
overflows the stack) is Option.none.
-/

/-- ResolveType from src/enums.ts: Singleton, NewInstance, PerChildContainer. -/
inductive RT
  | singleton
  | newInstance
  | perChild
  deriving DecidableEq, Repr

/-- Whether a class extends ResolveStrategy (sync hook), AsyncResolveStrategy
(async hook), or neither (src/interfaces.ts). -/
inductive Hook
  | nohook
  | syncHook
  | asyncHook
  deriving DecidableEq, Repr

/-- IToInject from src/interfaces.ts.  The target class is recorded by name
(classes have distinct names in a well-formed program).  The all and
autoinject fields are dropped: _resolveDeps (container.ts 494-520) calls
self.resolve(t.inject) unconditionally, and where the resolved value is bound
on the new instance does not affect any claim. -/
structure ToInject where
  inject : String
  deriving DecidableEq, Repr

/-- IInjectDescriptor from src/interfaces.ts. -/
structure InjDescriptor where
  inject : List ToInject
  resolver : RT
  deriving DecidableEq, Repr

/-- The default descriptor used when no DI_DESCRIPTION_SYMBOL is attached
(container.ts line 491): empty injections, Singleton. -/
def defaultDescriptor : InjDescriptor := ⟨[], RT.singleton⟩

/-- A class of the program: its name, the result of the
DI_DESCRIPTION_SYMBOL lookup on it (Option.none when undecorated), and its
hook capability. -/
structure ClassDef where
  cname : String
  descr : Option InjDescriptor
  hook : Hook
  deriving DecidableEq, Repr

/-- A registered producer: a class (by name) or a factory function with its
JS function name and the class of object it constructs. -/
inductive Producer
  | cls (n : String)
  | factoryFn (fname : String) (prod : String)
  deriving DecidableEq, Repr

/-- The JS .name of a producer, used as cache key by resolveType when the
producer itself is the cache key (multi-resolution). -/
def Producer.keyName : Producer → String
  | .cls n => n
  | .factoryFn fn _ => fn

/-- The class of instance this producer constructs. -/
def Producer.prodName : Producer → String
  | .cls n => n
  | .factoryFn _ p => p

/-- A resolved value: an instance (class name and globally unique id) or a
reference to a container (registerSelf caches the container itself). -/
inductive Value
  | inst (cls : String) (uid : Nat)
  | cref (cid : Nat)
  deriving DecidableEq, Repr

/-- A construction event: one run of a constructor or factory, recording the
constructed class, the fresh uid and the hook kind that ran. -/
structure Event where
  cls : String
  uid : Nat
  hook : Hook
  deriving DecidableEq, Repr

/-- Association-list lookup (JS Map.get). -/
def lookupA {α : Type} : List (String × α) → String → Option α
  | [], _ => Option.none
  | (k, v) :: r, key => if k = key then some v else lookupA r key

/-- Association-list update with JS Map.set semantics: replace in place if the
key exists, else append. -/
def setA {α : Type} (key : String) (v : α) : List (String × α) → List (String × α)
  | [] => [(key, v)]
  | (k, w) :: r => if k = key then (key, v) :: r else (k, w) :: setA key v r

/-- One container: parent pointer, registry, cache (Container, container.ts
278-315). -/
structure ContainerSt where
  parent : Option Nat
  registry : List (String × List Producer)
  cache : List (String × Value)
  deriving DecidableEq, Repr

/-- Global state: all containers (index = identity), the fresh-uid counter and
the construction log (newest event first). -/
structure St where
  containers : List ContainerSt
  nextUid : Nat
  log : List Event
  deriving DecidableEq, Repr

/-- Container lookup by index. -/
def St.cont (s : St) (i : Nat) : Option ContainerSt := s.containers[i]?

/-- Update the element at one position of a list. -/
def updL {α : Type} (f : α → α) : Nat → List α → List α
  | _, [] => []
  | 0, a :: r => f a :: r
  | n + 1, a :: r => a :: updL f n r

/-- Update container i in place. -/
def updC (s : St) (i : Nat) (f : ContainerSt → ContainerSt) : St :=
  { s with containers := updL f i s.containers }

/-- A fresh container as built by the constructor (container.ts 309-315):
empty registry, empty cache, then registerSelf stores the container under the
key Container. -/
def freshContainer (parent : Option Nat) (selfIdx : Nat) : ContainerSt :=
  ⟨parent, [], [("Container", Value.cref selfIdx)]⟩

/-- The initial state: one root container (src/root.ts creates the root). -/
def initSt : St := ⟨[freshContainer Option.none 0], 0, []⟩

/-- child() (container.ts 359-361): a new container parented to i. -/
def childC (s : St) (i : Nat) : St × Nat :=
  ({ s with containers := s.containers ++ [freshContainer (some i) s.containers.length] },
    s.containers.length)

/-- clear() (container.ts 320-326): empty own cache and registry, then
registerSelf. -/
def clearC (s : St) (i : Nat) : St :=
  updC s i (fun c => ⟨c.parent, [], [("Container", Value.cref i)]⟩)

/-- register(impl).as(ident) (container.ts 340-347): append impl to the
binding list for ident, creating it if absent. -/
def registerAs (s : St) (i : Nat) (impl : Producer) (ident : String) : St :=
  updC s i (fun c =>
    { c with registry :=
        match lookupA c.registry ident with
        | some ps => setA ident (ps ++ [impl]) c.registry
        | Option.none => setA ident [impl] c.registry })

/-- register(impl).asSelf() (container.ts 348-351): bind impl to its own
identity. -/
def registerAsSelf (s : St) (i : Nat) (impl : Producer) : St :=
  updC s i (fun c => { c with registry := setA impl.keyName [impl] c.registry })

/-- Class-table lookup by name. -/
def lookupCls (prog : List ClassDef) (n : String) : Option ClassDef :=
  prog.find? (fun cd => cd.cname = n)

/-- Bounded upward walk for has(service, parent) (container.ts 389-405): own
cache, then the parent chain when parent is true.  The p < i check only
serves termination (in every state built by the operations a parent index is
smaller than its child); the explicit bound makes the recursion structural,
and a bound of i + 1 always suffices because indices strictly decrease. -/
def hasKeyB (s : St) : Nat → Nat → String → Bool → Bool
  | 0, _, _, _ => false
  | b + 1, i, key, par =>
    match s.cont i with
    | Option.none => false
    | some c =>
      match lookupA c.cache key with
      | some _ => true
      | Option.none =>
        match c.parent, par with
        | some p, true => if p < i then hasKeyB s b p key true else false
        | _, _ => false

/-- has(service, parent) for a string key (container.ts 389-405). -/
def hasKeyC (s : St) (i : Nat) (key : String) (par : Bool) : Bool :=
  hasKeyB s (i + 1) i key par

/-- Bounded upward walk for get(service, parent) (container.ts 369-379). -/
def getKeyB (s : St) : Nat → Nat → String → Bool → Option Value
  | 0, _, _, _ => Option.none
  | b + 1, i, key, par =>
    match s.cont i with
    | Option.none => Option.none
    | some c =>
      match lookupA c.cache key with
      | some v => some v
      | Option.none =>
        match c.parent, par with
        | some p, true => if p < i then getKeyB s b p key true else Option.none
        | _, _ => Option.none

/-- get(service, parent) for a string key (container.ts 369-379): own cache
entry, else the parent chain when parent is true, else null (Option.none). -/
def getKeyC (s : St) (i : Nat) (key : String) (par : Bool) : Option Value :=
  getKeyB s (i + 1) i key par

/-- _extractDescriptor (container.ts 490-492) as seen by the container model:
a class carries the outcome of the symbol lookup, a factory function carries
no symbol, and absence falls back to the default descriptor. -/
def extractDescr (prog : List ClassDef) : Producer → Option InjDescriptor
  | .cls n => (lookupCls prog n).map (fun cd => cd.descr.getD defaultDescriptor)
  | .factoryFn _ _ => some defaultDescriptor

/-- _getNewInstance (container.ts 530-570): invoke the factory, or construct
the class and run its hook.  The deferred flag is true exactly when the new
instance extends AsyncResolveStrategy (the function returns a Promise).
Returns Option.none only when the class is missing from the table. -/
def construct (prog : List ClassDef) (s : St) (p : Producer) :
    Option (Value × Bool × St) :=
  match p with
  | .factoryFn _ prod =>
    some (Value.inst prod s.nextUid, false,
      { s with nextUid := s.nextUid + 1,
               log := ⟨prod, s.nextUid, Hook.nohook⟩ :: s.log })
  | .cls n =>
    (lookupCls prog n).map (fun cd =>
      (Value.inst n s.nextUid, cd.hook = Hook.asyncHook,
        { s with nextUid := s.nextUid + 1,
                 log := ⟨n, s.nextUid, cd.hook⟩ :: s.log }))

/-- _getCachedInstance (container.ts 522-528): if self.has(name, parent) then
self.get(name, parent) else null. -/
def getCachedInstance (s : St) (i : Nat) (ckey : String) (par : Bool) : Option Value :=
  if hasKeyC s i ckey par then getKeyC s i ckey par else Option.none

/-- _resolve (container.ts 479-488): by resolver, return the cached instance
(ancestor-visible for Singleton, local for PerChildContainer) or construct a
new one.  Stored values are objects, hence never falsy, so the JS
short-circuit is a plain option match. -/
def resolveCore (prog : List ClassDef) (s : St) (i : Nat) (r : RT)
    (target : Producer) (ckey : String) : Option (Value × Bool × St) :=
  match r with
  | RT.newInstance => construct prog s target
  | RT.singleton =>
    match getCachedInstance s i ckey true with
    | some v => some (v, false, s)
    | Option.none => construct prog s target
  | RT.perChild =>
    match getCachedInstance s i ckey false with
    | some v => some (v, false, s)
    | Option.none => construct prog s target

/-- _setCache (container.ts 466-477).  The guard calls self.has(type, ...)
with the producer value, not a string; has then reads
service.constructor.name, and the constructor of a JS class or function is
Function, so the key actually checked is the literal string Function.  The
write stores the result under cacheKey.name. -/
def setCacheSt (s : St) (i : Nat) (r : RT) (ckey : String) (v : Value) : St :=
  match r with
  | RT.singleton =>
    if hasKeyC s i "Function" true then s
    else updC s i (fun c => { c with cache := setA ckey v c.cache })
  | RT.perChild =>
    if hasKeyC s i "Function" false then s
    else updC s i (fun c => { c with cache := setA ckey v c.cache })
  | RT.newInstance => s

/-- The four entry points of the recursive resolution, packed into one
request type so that the resolver is one structurally recursive function on
its fuel (the mutual functions of the source correspond to the four
constructors; wrappers with the original shapes follow). -/
inductive Req
  | one (ident : String)
  | typ (target : Producer) (ckey : String)
  | deps (ts : List ToInject)
  | targets (ps : List Producer)

/-- The resolution engine.  By request:

one ident: single resolution of an identifier (container.ts 424-443, the
non-TypedArray branch): take the registry binding list or fall back to the
identifier itself, and resolve the first producer with the identifier as
cache key.

typ target ckey: resolveType (container.ts 445-462): extract the descriptor
from the target, resolve the declared dependencies first, then run _resolve
and pipe the result through _setCache; deferred when the dependency phase or
the construction was.

deps ts: _resolveDeps (container.ts 494-520): resolve every injection target
in declaration order on the same container; deferred when any element is
(Promise.all).

targets ps: the TypedArray branch body (container.ts 433-440):
targetType.map(r => resolveType(r, r)), each producer with itself as cache
key, deferred when any element is.

Results are value lists; one and typ requests always produce one value. -/
def resolveF (prog : List ClassDef) : Nat → St → Nat → Req →
    Option (List Value × Bool × St)
  | 0, s, _, Req.deps [] => some ([], false, s)
  | 0, s, _, Req.targets [] => some ([], false, s)
  | 0, _, _, _ => Option.none
  | fuel + 1, s, i, Req.one ident =>
    match s.cont i with
    | Option.none => Option.none
    | some c =>
      match (lookupA c.registry ident).getD [Producer.cls ident] with
      | [] => Option.none
      | t :: _ => resolveF prog fuel s i (Req.typ t ident)
  | fuel + 1, s, i, Req.typ target ckey =>
    match extractDescr prog target with
    | Option.none => Option.none
    | some d =>
      match resolveF prog fuel s i (Req.deps d.inject) with
      | Option.none => Option.none
      | some (_, dfr1, s1) =>
        match resolveCore prog s1 i d.resolver target ckey with
        | Option.none => Option.none
        | some (v, dfr2, s2) =>
          some ([v], dfr1 || dfr2, setCacheSt s2 i d.resolver ckey v)
  | _ + 1, s, _, Req.deps [] => some ([], false, s)
  | fuel + 1, s, i, Req.deps (t :: rest) =>
    match resolveF prog fuel s i (Req.one t.inject) with
    | Option.none => Option.none
    | some (vs1, dfr1, s1) =>
      match resolveF prog fuel s1 i (Req.deps rest) with
      | Option.none => Option.none
      | some (vs2, dfr2, s2) => some (vs1 ++ vs2, dfr1 || dfr2, s2)
  | _ + 1, s, _, Req.targets [] => some ([], false, s)
  | fuel + 1, s, i, Req.targets (p :: ps) =>
    match resolveF prog fuel s i (Req.typ p p.keyName) with
    | Option.none => Option.none
    | some (vs1, dfr1, s1) =>
      match resolveF prog fuel s1 i (Req.targets ps) with
      | Option.none => Option.none
      | some (vs2, dfr2, s2) => some (vs1 ++ vs2, dfr1 || dfr2, s2)

/-- Single resolution, resolve(type) (container.ts 424-443): the unique value
of a one request. -/
def resolveSingle (prog : List ClassDef) (fuel : Nat) (s : St) (i : Nat)
    (ident : String) : Option (Value × Bool × St) :=
  match resolveF prog fuel s i (Req.one ident) with
  | some ([v], dfr, s1) => some (v, dfr, s1)
  | _ => Option.none

/-- resolveType (container.ts 445-462) with its original shape. -/
def resolveTypeW (prog : List ClassDef) (fuel : Nat) (s : St) (i : Nat)
    (target : Producer) (ckey : String) : Option (Value × Bool × St) :=
  match resolveF prog fuel s i (Req.typ target ckey) with
  | some ([v], dfr, s1) => some (v, dfr, s1)
  | _ => Option.none

/-- _resolveDeps (container.ts 494-520) with its original shape. -/
def resolveDeps (prog : List ClassDef) (fuel : Nat) (s : St) (i : Nat)
    (ts : List ToInject) : Option (List Value × Bool × St) :=
  resolveF prog fuel s i (Req.deps ts)

/-- Multi-resolution resolve(Array.ofType(X)) (container.ts 430-440): the
binding list of the identifier, or the identifier itself, each resolved with
itself as cache key; the collection is deferred when any element is. -/
def resolveMany (prog : List ClassDef) : Nat → St → Nat → String →
    Option (List Value × Bool × St)
  | 0, _, _, _ => Option.none
  | fuel + 1, s, i, ident =>
    match s.cont i with
    | Option.none => Option.none
    | some c =>
      resolveF prog fuel s i
        (Req.targets ((lookupA c.registry ident).getD [Producer.cls ident]))

/-- Static over-approximation of the cache keys a resolution may write and
of the classes it may construct, mirroring the fuel structure of resolveF
exactly.  First component: cache keys; second: constructed class names.  The
sets depend only on the class table and on the requesting container's
registry (never on caches), because resolveType always resolves dependencies
before consulting the cache: the recursion structure of a resolution is
cache-independent. -/
def statF (prog : List ClassDef) (reg : List (String × List Producer)) :
    Nat → Req → List String × List String
  | 0, _ => ([], [])
  | fuel + 1, Req.one ident =>
    match (lookupA reg ident).getD [Producer.cls ident] with
    | [] => ([], [])
    | t :: _ => statF prog reg fuel (Req.typ t ident)
  | fuel + 1, Req.typ target ckey =>
    match extractDescr prog target with
    | Option.none => ([], [])
    | some d =>
      let p := statF prog reg fuel (Req.deps d.inject)
      (ckey :: p.1, target.prodName :: p.2)
  | _ + 1, Req.deps [] => ([], [])
  | fuel + 1, Req.deps (t :: rest) =>
    let p := statF prog reg fuel (Req.one t.inject)
    let q := statF prog reg fuel (Req.deps rest)
    (p.1 ++ q.1, p.2 ++ q.2)
  | _ + 1, Req.targets [] => ([], [])
  | fuel + 1, Req.targets (p :: ps) =>
    let a := statF prog reg fuel (Req.typ p p.keyName)
    let b := statF prog reg fuel (Req.targets ps)
    (a.1 ++ b.1, a.2 ++ b.2)

/-- Bounded upward parent chain of container i, starting at i itself; the
p < i check serves termination and the bound i + 1 always suffices. -/
def chainB (s : St) : Nat → Nat → List Nat
  | 0, i => [i]
  | b + 1, i =>
    match s.cont i with
    | Option.none => [i]
    | some c =>
      match c.parent with
      | some p => if p < i then i :: chainB s b p else [i]
      | Option.none => [i]

/-- The upward parent chain of container i, starting at i itself. -/
def chainOf (s : St) (i : Nat) : List Nat := chainB s (i + 1) i

/-- d is ct itself or one of its descendants: ct lies on the parent chain of
d. -/
def isDescOf (s : St) (d ct : Nat) : Bool := ct ∈ chainOf s d

/-- No container binds anything against this identifier: the identifier
self-resolves everywhere. -/
def regUnbound (s : St) (n : String) : Bool :=
  s.containers.all (fun c => (lookupA c.registry n).isNone)

/-- No container caches anything under this name. -/
def uncachedAll (s : St) (n : String) : Bool :=
  s.containers.all (fun c => (lookupA c.cache n).isNone)

/-- Number of construction events for a class in a log. -/
def ctorCount (n : String) (l : List Event) : Nat :=
  (l.filter (fun e => e.cls = n)).length

/-- Cache discipline reached by every run of the library: after the first
resolution of a Singleton identifier, the resolving container holds the
instance and any other entry for the identifier (copies written by
descendants that found it by upward lookup) holds the same instance. -/
def singHold (c : String) (ct : Nat) (v : Value) (s : St) : Bool :=
  (match s.cont ct with
   | some cc => lookupA cc.cache c = some v
   | Option.none => false)
  && s.containers.all (fun cc =>
       match lookupA cc.cache c with
       | some w => w = v
       | Option.none => true)

/-!
Inheritance-chain model for descriptor extraction (claim about
_extractDescriptor, container.ts 490-492, and the decorator attachment sites
in src/decorators.ts).

A JS class gives rise to two parallel prototype chains: the chain of
constructor functions (a derived class constructor inherits from the base
class constructor) and the chain of prototype objects.  A class decorator
(Inject, InjectAll, Singleton, NewInstance, PerChildInstance) stores the
descriptor as a property of the constructor; a property decorator
(Autoinject) stores it on the prototype object.  JLevel records, for one
level of the hierarchy (most derived first), which own descriptor properties
that level carries.

The expression type[DI_DESCRIPTION_SYMBOL] is a JS property lookup that
walks the constructor chain and yields the first own property found;
type.prototype[DI_DESCRIPTION_SYMBOL] does the same on the prototype chain.
-/

/-- One level of a producer's inheritance hierarchy: the own
DI_DESCRIPTION_SYMBOL property of the constructor and of the prototype at
this level, if any. -/
structure JLevel where
  ctorD : Option InjDescriptor
  protoD : Option InjDescriptor
  deriving DecidableEq, Repr

/-- First present value in a list of options (JS prototype-chain property
lookup over the own-property slots). -/
def firstSome {α : Type} : List (Option α) → Option α
  | [] => Option.none
  | some a :: _ => some a
  | Option.none :: r => firstSome r

/-- _extractDescriptor (container.ts 490-492) over an inheritance chain
(most derived level first):
type[SYMBOL] || (type.prototype && type.prototype[SYMBOL]) || default. -/
def extractDescriptorChain (chain : List JLevel) : InjDescriptor :=
  match firstSome (chain.map (fun l => l.ctorD)) with
  | some d => d
  | Option.none =>
    match firstSome (chain.map (fun l => l.protoD)) with
    | some d => d
    | Option.none => defaultDescriptor

/-- Injection list de-duplication, keeping the first occurrence of each
target already seen. -/
def dedupFirstAux (seen : List String) : List ToInject → List ToInject
  | [] => []
  | t :: r =>
    if t.inject ∈ seen then dedupFirstAux seen r
    else t :: dedupFirstAux (t.inject :: seen) r

/-- Injection list de-duplicated by target identity, first occurrence wins. -/
def dedupFirst (l : List ToInject) : List ToInject := dedupFirstAux [] l

/-- Injections attached at one level (constructor-side then prototype-side). -/
def levelInjects (l : JLevel) : List ToInject :=
  (match l.ctorD with | some d => d.inject | Option.none => []) ++
  (match l.protoD with | some d => d.inject | Option.none => [])

/-- Modelled from the spec: the merged-descriptor extraction algorithm that
section 4.2 of the spec describes (traverse the chain from derived to base,
concatenate the injections of every level, de-duplicate by target identity
with the first occurrence winning, take the lifecycle from the most derived
level that declares one, default to empty injections and Singleton).  The
source has no such merge; this definition exists to be compared with
extractDescriptorChain. -/
def extractDescriptorSpec (chain : List JLevel) : InjDescriptor :=
  ⟨dedupFirst (chain.flatMap levelInjects),
    ((chain.findSome? (fun l =>
        match l.ctorD with
        | some d => some d
        | Option.none => l.protoD)).map (fun d => d.resolver)).getD RT.singleton⟩

/-!
Two same-tick resolutions (concurrency claim).  In JS the only suspension
points are asynchronous constructions; when the same Singleton identifier is
resolved twice in one tick and its construction suspends (an
AsyncResolveStrategy hook), the event-loop order is fixed: call A runs its
synchronous part (dependency phase, cache check, construction, hook start),
call B runs its synchronous part, then the two pending _setCache
continuations run in completion order A, B.  The model composes the very
stage functions of resolveType in that order. -/
def concurrentPair (prog : List ClassDef) (fuel : Nat) (s : St) (i : Nat)
    (ident : String) : Option ((Value × Value) × St) :=
  match s.cont i with
  | Option.none => Option.none
  | some c =>
    match (lookupA c.registry ident).getD [Producer.cls ident] with
    | [] => Option.none
    | target :: _ =>
      match extractDescr prog target with
      | Option.none => Option.none
      | some d =>
        match resolveDeps prog fuel s i d.inject with
        | Option.none => Option.none
        | some (_, _, s1) =>
          match resolveCore prog s1 i d.resolver target ident with
          | Option.none => Option.none
          | some (vA, _, s2) =>
            match resolveDeps prog fuel s2 i d.inject with
            | Option.none => Option.none
            | some (_, _, s3) =>
              match resolveCore prog s3 i d.resolver target ident with
              | Option.none => Option.none
              | some (vB, _, s4) =>
                let s5 := setCacheSt s4 i d.resolver ident vA
                let s6 := setCacheSt s5 i d.resolver ident vB
                some ((vA, vB), s6)

/-! Helper lemmas about firstSome. -/

theorem firstSome_map_none {α β : Type} (f : α → Option β) :
    ∀ l : List α, (∀ x ∈ l, f x = Option.none) → firstSome (l.map f) = Option.none := by
  intro l
  induction l with
  | nil => intro _; rfl
  | cons a r ih =>
    intro h
    have ha : f a = Option.none := h a (by simp)
    simp only [List.map_cons, ha]
    exact ih (fun x hx => h x (by simp [hx]))

theorem firstSome_map_append_none {α β : Type} (f : α → Option β)
    (pre rest : List α) (h : ∀ x ∈ pre, f x = Option.none) :
    firstSome ((pre ++ rest).map f) = firstSome (rest.map f) := by
  induction pre with
  | nil => simp
  | cons a r ih =>
    have ha : f a = Option.none := h a (by simp)
    simp only [List.cons_append, List.map_cons, ha]
    show firstSome (Option.none :: (r ++ rest).map f) = firstSome (rest.map f)
    rw [show firstSome (Option.none :: (r ++ rest).map f) = firstSome ((r ++ rest).map f) from rfl]
    exact ih (fun x hx => h x (by simp [hx]))

theorem firstSome_map_cons_some {α β : Type} (f : α → Option β) (a : α) (r : List α)
    (b : β) (h : f a = some b) : firstSome ((a :: r).map f) = some b := by
  simp only [List.map_cons, h]
  rfl

/-- C6 counterexample: _extractDescriptor does not implement the merged
extraction the spec describes.  With a derived level carrying a
constructor-side descriptor injecting Quux and a base level carrying a
prototype-side descriptor injecting Bar (the attachment produced by a class
decorator on the derived class over a property decorator on the base class),
the code returns only the derived descriptor, while the spec-modelled merge
concatenates both injections. -/
theorem c6_counterexample :
    extractDescriptorChain
        [⟨some ⟨[⟨"Quux"⟩], RT.singleton⟩, Option.none⟩,
         ⟨Option.none, some ⟨[⟨"Bar"⟩], RT.singleton⟩⟩] ≠
      extractDescriptorSpec
        [⟨some ⟨[⟨"Quux"⟩], RT.singleton⟩, Option.none⟩,
         ⟨Option.none, some ⟨[⟨"Bar"⟩], RT.singleton⟩⟩] := by
  decide

/-- C6 amended: descriptor extraction does not merge descriptors across the
inheritance chain.  It returns verbatim the descriptor attached at the most
derived level that carries one on the constructor side; only when no level
carries a constructor-side descriptor does it return the one at the most
derived level carrying a prototype-side descriptor; and when no level
carries any descriptor it yields the default descriptor (no injections,
Singleton).  No concatenation and no de-duplication take place. -/
theorem c6_extraction_single_descriptor (chain : List JLevel) :
    ((∀ l ∈ chain, l.ctorD = Option.none ∧ l.protoD = Option.none) →
      extractDescriptorChain chain = defaultDescriptor)
    ∧ (∀ pre l post d, chain = pre ++ l :: post →
        (∀ p ∈ pre, p.ctorD = Option.none) → l.ctorD = some d →
        extractDescriptorChain chain = d)
    ∧ ((∀ l ∈ chain, l.ctorD = Option.none) →
        ∀ pre l post d, chain = pre ++ l :: post →
        (∀ p ∈ pre, p.protoD = Option.none) → l.protoD = some d →
        extractDescriptorChain chain = d) := by
  refine ⟨?_, ?_, ?_⟩
  · intro h
    unfold extractDescriptorChain
    rw [firstSome_map_none _ chain (fun x hx => (h x hx).1),
        firstSome_map_none _ chain (fun x hx => (h x hx).2)]
  · intro pre l post d hchain hpre hl
    unfold extractDescriptorChain
    rw [hchain, firstSome_map_append_none _ pre _ hpre,
        firstSome_map_cons_some _ l post d hl]
  · intro hctor pre l post d hchain hpre hl
    unfold extractDescriptorChain
    rw [firstSome_map_none _ chain hctor, hchain,
        firstSome_map_append_none _ pre _ hpre,
        firstSome_map_cons_some _ l post d hl]

/-- C6 amended, instantiated: on the chain of the counterexample the
extraction returns exactly the most derived constructor-side descriptor. -/
theorem c6_extraction_single_descriptor_witness :
    extractDescriptorChain
        [⟨some ⟨[⟨"Quux"⟩], RT.singleton⟩, Option.none⟩,
         ⟨Option.none, some ⟨[⟨"Bar"⟩], RT.singleton⟩⟩] =
      ⟨[⟨"Quux"⟩], RT.singleton⟩ :=
  (c6_extraction_single_descriptor _).2.1 [] _
    [⟨Option.none, some ⟨[⟨"Bar"⟩], RT.singleton⟩⟩] _ rfl (by simp) rfl

/-! Basic lemmas about association lists and the bounded walks. -/

theorem lookupA_setA_same {α : Type} (key : String) (v : α) :
    ∀ l : List (String × α), lookupA (setA key v l) key = some v := by
  intro l
  induction l with
  | nil => simp [setA, lookupA]
  | cons kv r ih =>
    obtain ⟨k, w⟩ := kv
    by_cases h : k = key
    · simp [setA, lookupA, h]
    · simp [setA, lookupA, h, ih]

theorem lookupA_setA_other {α : Type} (key key2 : String) (v : α)
    (hne : key ≠ key2) :
    ∀ l : List (String × α), lookupA (setA key v l) key2 = lookupA l key2 := by
  intro l
  induction l with
  | nil => simp [setA, lookupA, hne]
  | cons kv r ih =>
    obtain ⟨k, w⟩ := kv
    by_cases h : k = key
    · subst h; simp [setA, lookupA, hne, ih]
    · simp only [setA, if_neg h]
      by_cases h2 : k = key2
      · simp [lookupA, h2]
      · simp [lookupA, h2, ih]

theorem setA_self {α : Type} (key : String) (v : α) :
    ∀ l : List (String × α), lookupA l key = some v → setA key v l = l := by
  intro l
  induction l with
  | nil => intro h; simp [lookupA] at h
  | cons kv r ih =>
    obtain ⟨k, w⟩ := kv
    intro h
    by_cases hk : k = key
    · subst hk
      have hw : w = v := by simpa [lookupA] using h
      subst hw
      simp [setA]
    · simp only [lookupA, if_neg hk] at h
      simp [setA, hk, ih h]

theorem hasKeyB_irrel (s : St) (key : String) :
    ∀ b, ∀ b2, ∀ i, ∀ par, i < b → i < b2 →
      hasKeyB s b i key par = hasKeyB s b2 i key par := by
  intro b
  induction b with
  | zero => intro b2 i par h _; omega
  | succ b ih =>
    intro b2 i par hb hb2
    match b2, hb2 with
    | b2 + 1, _ =>
      simp only [hasKeyB]
      repeat' split
      all_goals try rfl
      exact ih b2 _ true (by omega) (by omega)

theorem hasKeyC_none (s : St) (i : Nat) (key : String) (par : Bool)
    (h : s.cont i = Option.none) : hasKeyC s i key par = false := by
  show hasKeyB s (i + 1) i key par = false
  simp [hasKeyB, h]

theorem hasKeyC_hit (s : St) (i : Nat) (key : String) (par : Bool)
    (c : ContainerSt) (v : Value) (h : s.cont i = some c)
    (hl : lookupA c.cache key = some v) : hasKeyC s i key par = true := by
  show hasKeyB s (i + 1) i key par = true
  simp [hasKeyB, h, hl]

theorem hasKeyC_up (s : St) (i : Nat) (key : String) (c : ContainerSt)
    (p : Nat) (h : s.cont i = some c) (hl : lookupA c.cache key = Option.none)
    (hp : c.parent = some p) (hpi : p < i) :
    hasKeyC s i key true = hasKeyC s p key true := by
  show hasKeyB s (i + 1) i key true = hasKeyB s (p + 1) p key true
  simp only [hasKeyB, h, hl, hp, if_pos hpi]
  exact hasKeyB_irrel s key i (p + 1) p true (by omega) (by omega)

theorem hasKeyC_local_miss (s : St) (i : Nat) (key : String) (c : ContainerSt)
    (h : s.cont i = some c) (hl : lookupA c.cache key = Option.none) :
    hasKeyC s i key false = false := by
  show hasKeyB s (i + 1) i key false = false
  simp only [hasKeyB, h, hl]
  cases c.parent <;> rfl

theorem hasKeyC_root_miss (s : St) (i : Nat) (key : String) (par : Bool)
    (c : ContainerSt) (h : s.cont i = some c)
    (hl : lookupA c.cache key = Option.none) (hp : c.parent = Option.none) :
    hasKeyC s i key par = false := by
  show hasKeyB s (i + 1) i key par = false
  simp only [hasKeyB, h, hl, hp]

theorem getKeyB_irrel (s : St) (key : String) :
    ∀ b, ∀ b2, ∀ i, ∀ par, i < b → i < b2 →
      getKeyB s b i key par = getKeyB s b2 i key par := by
  intro b
  induction b with
  | zero => intro b2 i par h _; omega
  | succ b ih =>
    intro b2 i par hb hb2
    match b2, hb2 with
    | b2 + 1, _ =>
      simp only [getKeyB]
      repeat' split
      all_goals try rfl
      exact ih b2 _ true (by omega) (by omega)

theorem getKeyC_none (s : St) (i : Nat) (key : String) (par : Bool)
    (h : s.cont i = Option.none) : getKeyC s i key par = Option.none := by
  show getKeyB s (i + 1) i key par = Option.none
  simp [getKeyB, h]

theorem getKeyC_hit (s : St) (i : Nat) (key : String) (par : Bool)
    (c : ContainerSt) (v : Value) (h : s.cont i = some c)
    (hl : lookupA c.cache key = some v) : getKeyC s i key par = some v := by
  show getKeyB s (i + 1) i key par = some v
  simp [getKeyB, h, hl]

theorem getKeyC_up (s : St) (i : Nat) (key : String) (c : ContainerSt)
    (p : Nat) (h : s.cont i = some c) (hl : lookupA c.cache key = Option.none)
    (hp : c.parent = some p) (hpi : p < i) :
    getKeyC s i key true = getKeyC s p key true := by
  show getKeyB s (i + 1) i key true = getKeyB s (p + 1) p key true
  simp only [getKeyB, h, hl, hp, if_pos hpi]
  exact getKeyB_irrel s key i (p + 1) p true (by omega) (by omega)

theorem getKeyC_local_miss (s : St) (i : Nat) (key : String) (c : ContainerSt)
    (h : s.cont i = some c) (hl : lookupA c.cache key = Option.none) :
    getKeyC s i key false = Option.none := by
  show getKeyB s (i + 1) i key false = Option.none
  simp only [getKeyB, h, hl]
  cases c.parent <;> rfl

theorem getKeyC_root_miss (s : St) (i : Nat) (key : String) (par : Bool)
    (c : ContainerSt) (h : s.cont i = some c)
    (hl : lookupA c.cache key = Option.none) (hp : c.parent = Option.none) :
    getKeyC s i key par = Option.none := by
  show getKeyB s (i + 1) i key par = Option.none
  simp only [getKeyB, h, hl, hp]

theorem chainB_irrel (s : St) :
    ∀ b, ∀ b2, ∀ i, i < b → i < b2 → chainB s b i = chainB s b2 i := by
  intro b
  induction b with
  | zero => intro b2 i h _; omega
  | succ b ih =>
    intro b2 i hb hb2
    match b2, hb2 with
    | b2 + 1, _ =>
      simp only [chainB]
      repeat' split
      all_goals try rfl
      rw [ih b2 _ (by omega) (by omega)]

theorem chainOf_up (s : St) (i : Nat) (c : ContainerSt) (p : Nat)
    (h : s.cont i = some c) (hp : c.parent = some p) (hpi : p < i) :
    chainOf s i = i :: chainOf s p := by
  show chainB s (i + 1) i = i :: chainB s (p + 1) p
  conv_lhs => simp only [chainB]
  simp only [h, hp, if_pos hpi]
  exact congrArg (List.cons i) (chainB_irrel s i (p + 1) p (by omega) (by omega))

theorem chainOf_root (s : St) (i : Nat) (c : ContainerSt)
    (h : s.cont i = some c) (hp : c.parent = Option.none) :
    chainOf s i = [i] := by
  show chainB s (i + 1) i = [i]
  simp [chainB, h, hp]

theorem chainOf_missing (s : St) (i : Nat) (h : s.cont i = Option.none) :
    chainOf s i = [i] := by
  show chainB s (i + 1) i = [i]
  simp [chainB, h]

/-! Effect lemmas for the state operations. -/

theorem updL_length {α : Type} (f : α → α) :
    ∀ i, ∀ l : List α, (updL f i l).length = l.length := by
  intro i
  induction i with
  | zero => intro l; cases l <;> simp [updL]
  | succ n ih => intro l; cases l <;> simp [updL, ih]

theorem updL_get_self {α : Type} (f : α → α) :
    ∀ i, ∀ l : List α, (updL f i l)[i]? = (l[i]?).map f := by
  intro i
  induction i with
  | zero => intro l; cases l <;> simp [updL]
  | succ n ih => intro l; cases l <;> simp [updL, ih]

theorem updL_get_other {α : Type} (f : α → α) :
    ∀ i j, j ≠ i → ∀ l : List α, (updL f i l)[j]? = l[j]? := by
  intro i
  induction i with
  | zero =>
    intro j hj l
    cases l with
    | nil => simp [updL]
    | cons a r =>
      match j, hj with
      | j + 1, _ => simp [updL]
  | succ n ih =>
    intro j hj l
    cases l with
    | nil => simp [updL]
    | cons a r =>
      match j with
      | 0 => simp [updL]
      | j + 1 => simpa [updL] using ih j (by omega) r

theorem cont_updC_self (s : St) (i : Nat) (f : ContainerSt → ContainerSt) :
    (updC s i f).cont i = (s.cont i).map f := by
  simp [updC, St.cont, updL_get_self]

theorem cont_updC_other (s : St) (i j : Nat) (f : ContainerSt → ContainerSt)
    (h : j ≠ i) : (updC s i f).cont j = s.cont j := by
  simp [updC, St.cont, updL_get_other f i j h]

theorem updC_nextUid (s : St) (i : Nat) (f : ContainerSt → ContainerSt) :
    (updC s i f).nextUid = s.nextUid := rfl

theorem updC_log (s : St) (i : Nat) (f : ContainerSt → ContainerSt) :
    (updC s i f).log = s.log := rfl

theorem updC_length (s : St) (i : Nat) (f : ContainerSt → ContainerSt) :
    (updC s i f).containers.length = s.containers.length := by
  simp [updC, updL_length]

/-- setCacheSt either leaves the state alone (Transient, or the guard that
mistakenly probes the key Function found it) or sets the written key on
container i. -/
theorem setCacheSt_cases (s : St) (i : Nat) (r : RT) (ckey : String)
    (v : Value) :
    setCacheSt s i r ckey v = s ∨
      setCacheSt s i r ckey v =
        updC s i (fun c => { c with cache := setA ckey v c.cache }) := by
  cases r
  · simp only [setCacheSt]
    by_cases h : hasKeyC s i "Function" true = true
    · rw [if_pos h]; exact Or.inl rfl
    · rw [if_neg h]; exact Or.inr rfl
  · exact Or.inl rfl
  · simp only [setCacheSt]
    by_cases h : hasKeyC s i "Function" false = true
    · rw [if_pos h]; exact Or.inl rfl
    · rw [if_neg h]; exact Or.inr rfl

theorem setCacheSt_cont_other (s : St) (i j : Nat) (r : RT) (ckey : String)
    (v : Value) (h : j ≠ i) : (setCacheSt s i r ckey v).cont j = s.cont j := by
  rcases setCacheSt_cases s i r ckey v with he | he <;> rw [he]
  exact cont_updC_other s i j _ h

theorem setCacheSt_nextUid (s : St) (i : Nat) (r : RT) (ckey : String)
    (v : Value) : (setCacheSt s i r ckey v).nextUid = s.nextUid := by
  rcases setCacheSt_cases s i r ckey v with he | he <;> rw [he] <;> rfl

theorem setCacheSt_log (s : St) (i : Nat) (r : RT) (ckey : String)
    (v : Value) : (setCacheSt s i r ckey v).log = s.log := by
  rcases setCacheSt_cases s i r ckey v with he | he <;> rw [he] <;> rfl

theorem setCacheSt_length (s : St) (i : Nat) (r : RT) (ckey : String)
    (v : Value) :
    (setCacheSt s i r ckey v).containers.length = s.containers.length := by
  rcases setCacheSt_cases s i r ckey v with he | he <;> rw [he]
  exact updC_length s i _

/-- The cache of the written container: either untouched (guard hit or
Transient) or set at the written key. -/
theorem setCacheSt_cont_self (s : St) (i : Nat) (r : RT) (ckey : String)
    (v : Value) :
    (setCacheSt s i r ckey v).cont i = s.cont i ∨
      (setCacheSt s i r ckey v).cont i =
        (s.cont i).map (fun c => { c with cache := setA ckey v c.cache }) := by
  rcases setCacheSt_cases s i r ckey v with he | he <;> rw [he]
  · exact Or.inl rfl
  · exact Or.inr (cont_updC_self s i _)

/-- Effects of construct: containers untouched, uid bumped, one event
prepended whose deferred flag matches the async hook. -/
theorem construct_effects (prog : List ClassDef) (s : St) (p : Producer)
    (v : Value) (dfr : Bool) (s2 : St)
    (h : construct prog s p = some (v, dfr, s2)) :
    s2.containers = s.containers ∧ s2.nextUid = s.nextUid + 1 ∧
      (∃ e : Event, s2.log = e :: s.log ∧ e.uid = s.nextUid ∧
        e.cls = p.prodName ∧ dfr = decide (e.hook = Hook.asyncHook) ∧
        v = Value.inst p.prodName s.nextUid) := by
  cases p with
  | factoryFn fn pr =>
    simp only [construct, Option.some.injEq, Prod.mk.injEq] at h
    obtain ⟨hv, hd, hs⟩ := h
    subst hs
    refine ⟨rfl, rfl, ⟨pr, s.nextUid, Hook.nohook⟩, rfl, rfl, rfl, ?_, ?_⟩
    · exact hd.symm
    · exact hv.symm
  | cls n =>
    simp only [construct, Option.map_eq_some'] at h
    obtain ⟨cd, hcd, heq⟩ := h
    simp only [Prod.mk.injEq] at heq
    obtain ⟨hv, hd, hs⟩ := heq
    subst hs
    refine ⟨rfl, rfl, ⟨n, s.nextUid, cd.hook⟩, rfl, rfl, rfl, ?_, ?_⟩
    · exact hd.symm
    · exact hv.symm

theorem hasKeyC_stuck (s : St) (i : Nat) (key : String) (c : ContainerSt)
    (p : Nat) (h : s.cont i = some c) (hl : lookupA c.cache key = Option.none)
    (hp : c.parent = some p) (hnpi : ¬ p < i) :
    hasKeyC s i key true = false := by
  show hasKeyB s (i + 1) i key true = false
  simp only [hasKeyB, h, hl, hp, if_neg hnpi]

theorem getKeyC_stuck (s : St) (i : Nat) (key : String) (c : ContainerSt)
    (p : Nat) (h : s.cont i = some c) (hl : lookupA c.cache key = Option.none)
    (hp : c.parent = some p) (hnpi : ¬ p < i) :
    getKeyC s i key true = Option.none := by
  show getKeyB s (i + 1) i key true = Option.none
  simp only [getKeyB, h, hl, hp, if_neg hnpi]

/-- The upward cache probes depend only on the containers at index at most
i. -/
theorem getKeyC_congr :
    ∀ i, ∀ s s2 : St, ∀ key par, (∀ j, j ≤ i → s2.cont j = s.cont j) →
      getKeyC s2 i key par = getKeyC s i key par := by
  intro i
  induction i using Nat.strong_induction_on with
  | _ i ih =>
    intro s s2 key par h
    cases hc : s.cont i with
    | none =>
      rw [getKeyC_none s i key par hc,
        getKeyC_none s2 i key par ((h i le_rfl).trans hc)]
    | some c =>
      have hc2 : s2.cont i = some c := (h i le_rfl).trans hc
      cases hl : lookupA c.cache key with
      | some v =>
        rw [getKeyC_hit s i key par c v hc hl, getKeyC_hit s2 i key par c v hc2 hl]
      | none =>
        cases hp : c.parent with
        | none =>
          rw [getKeyC_root_miss s i key par c hc hl hp,
            getKeyC_root_miss s2 i key par c hc2 hl hp]
        | some p =>
          cases par with
          | false =>
            rw [getKeyC_local_miss s i key c hc hl,
              getKeyC_local_miss s2 i key c hc2 hl]
          | true =>
            by_cases hpi : p < i
            · rw [getKeyC_up s i key c p hc hl hp hpi,
                getKeyC_up s2 i key c p hc2 hl hp hpi]
              exact ih p hpi s s2 key true (fun j hj => h j (by omega))
            · rw [getKeyC_stuck s i key c p hc hl hp hpi,
                getKeyC_stuck s2 i key c p hc2 hl hp hpi]

theorem hasKeyC_congr :
    ∀ i, ∀ s s2 : St, ∀ key par, (∀ j, j ≤ i → s2.cont j = s.cont j) →
      hasKeyC s2 i key par = hasKeyC s i key par := by
  intro i
  induction i using Nat.strong_induction_on with
  | _ i ih =>
    intro s s2 key par h
    cases hc : s.cont i with
    | none =>
      rw [hasKeyC_none s i key par hc,
        hasKeyC_none s2 i key par ((h i le_rfl).trans hc)]
    | some c =>
      have hc2 : s2.cont i = some c := (h i le_rfl).trans hc
      cases hl : lookupA c.cache key with
      | some v =>
        rw [hasKeyC_hit s i key par c v hc hl, hasKeyC_hit s2 i key par c v hc2 hl]
      | none =>
        cases hp : c.parent with
        | none =>
          rw [hasKeyC_root_miss s i key par c hc hl hp,
            hasKeyC_root_miss s2 i key par c hc2 hl hp]
        | some p =>
          cases par with
          | false =>
            rw [hasKeyC_local_miss s i key c hc hl,
              hasKeyC_local_miss s2 i key c hc2 hl]
          | true =>
            by_cases hpi : p < i
            · rw [hasKeyC_up s i key c p hc hl hp hpi,
                hasKeyC_up s2 i key c p hc2 hl hp hpi]
              exact ih p hpi s s2 key true (fun j hj => h j (by omega))
            · rw [hasKeyC_stuck s i key c p hc hl hp hpi,
                hasKeyC_stuck s2 i key c p hc2 hl hp hpi]

/-- C8 counterexample: after clear(), get(name) does not return nil for every
previously cached name.  Concretely: a child of the root resolves the
Singleton class Foo (the instance, first created at the root, is also copied
into the child cache, so Foo is a previously cached name of the child);
after child.clear(), get("Foo") on the child still returns the instance,
because get walks to the parent, whose cache clear() did not touch. -/
theorem c8_counterexample :
    ((resolveSingle [⟨"Foo", Option.none, Hook.nohook⟩] 5 (childC initSt 0).1 0 "Foo").bind
      (fun r1 => (resolveSingle [⟨"Foo", Option.none, Hook.nohook⟩] 5 r1.2.2 1 "Foo").map
        (fun r2 =>
          ((r2.2.2.cont 1).map (fun c => lookupA c.cache "Foo"),
            getKeyC (clearC r2.2.2 1) 1 "Foo" true)))) =
      some (some (some (Value.inst "Foo" 0)), some (Value.inst "Foo" 0)) := by
  decide

/-- C8 amended: clear() empties only the invoking container's own registry
and cache and then re-registers the container itself under the key
Container; every other container (parent and already-created children) is
left untouched.  Afterwards, for any name other than Container, a
local-only get returns nil, and a get with the default parent walk returns
whatever the parent chain already held (nil when the container is a root). -/
theorem c8_clear_own_scope (s : St) (i : Nat) (cs : ContainerSt)
    (h : s.cont i = some cs) :
    (clearC s i).cont i = some ⟨cs.parent, [], [("Container", Value.cref i)]⟩
    ∧ (∀ j, j ≠ i → (clearC s i).cont j = s.cont j)
    ∧ (∀ n, n ≠ "Container" → getKeyC (clearC s i) i n false = Option.none)
    ∧ (∀ n p, n ≠ "Container" → cs.parent = some p → p < i →
        getKeyC (clearC s i) i n true = getKeyC s p n true)
    ∧ (∀ n, n ≠ "Container" → cs.parent = Option.none →
        getKeyC (clearC s i) i n true = Option.none) := by
  have hci : (clearC s i).cont i =
      some ⟨cs.parent, [], [("Container", Value.cref i)]⟩ := by
    unfold clearC
    rw [cont_updC_self, h]
    rfl
  have hother : ∀ j, j ≠ i → (clearC s i).cont j = s.cont j := by
    intro j hj
    unfold clearC
    exact cont_updC_other s i j _ hj
  have hlook : ∀ n : String, n ≠ "Container" →
      lookupA [("Container", Value.cref i)] n = Option.none := by
    intro n hn
    have : ¬ ("Container" = n) := fun hh => hn hh.symm
    simp [lookupA, this]
  refine ⟨hci, hother, ?_, ?_, ?_⟩
  · intro n hn
    exact getKeyC_local_miss (clearC s i) i n _ hci (hlook n hn)
  · intro n p hn hp hpi
    rw [getKeyC_up (clearC s i) i n _ p hci (hlook n hn) hp hpi]
    exact getKeyC_congr p s (clearC s i) n true
      (fun j hj => hother j (by omega))
  · intro n hn hp
    exact getKeyC_root_miss (clearC s i) i n true _ hci (hlook n hn) hp

/-- C8 amended, instantiated: clearing the child of a fresh root leaves the
root untouched and a local get for Foo on the child returns nil. -/
theorem c8_clear_own_scope_witness :
    getKeyC (clearC (childC initSt 0).1 1) 1 "Foo" false = Option.none ∧
      (clearC (childC initSt 0).1 1).cont 0 = (childC initSt 0).1.cont 0 :=
  ⟨(c8_clear_own_scope (childC initSt 0).1 1 (freshContainer (some 0) 1)
      (by decide)).2.2.1 "Foo" (by decide),
    (c8_clear_own_scope (childC initSt 0).1 1 (freshContainer (some 0) 1)
      (by decide)).2.1 0 (by decide)⟩

/-! Unfolding lemmas for the resolver stages. -/

theorem resolveDeps_nil (prog : List ClassDef) (fuel : Nat) (s : St) (i : Nat) :
    resolveDeps prog fuel s i [] = some ([], false, s) := by
  cases fuel <;> rfl

theorem getCachedInstance_miss (s : St) (i : Nat) (ckey : String) (par : Bool)
    (h : hasKeyC s i ckey par = false) :
    getCachedInstance s i ckey par = Option.none := by
  simp [getCachedInstance, h]

theorem getCachedInstance_hit (s : St) (i : Nat) (ckey : String) (par : Bool)
    (h : hasKeyC s i ckey par = true) :
    getCachedInstance s i ckey par = getKeyC s i ckey par := by
  simp [getCachedInstance, h]

theorem resolveCore_new (prog : List ClassDef) (s : St) (i : Nat)
    (t : Producer) (ckey : String) :
    resolveCore prog s i RT.newInstance t ckey = construct prog s t := rfl

theorem resolveCore_singleton_miss (prog : List ClassDef) (s : St) (i : Nat)
    (t : Producer) (ckey : String) (h : hasKeyC s i ckey true = false) :
    resolveCore prog s i RT.singleton t ckey = construct prog s t := by
  simp [resolveCore, getCachedInstance_miss s i ckey true h]

theorem resolveCore_singleton_hit (prog : List ClassDef) (s : St) (i : Nat)
    (t : Producer) (ckey : String) (v : Value)
    (h : hasKeyC s i ckey true = true) (hg : getKeyC s i ckey true = some v) :
    resolveCore prog s i RT.singleton t ckey = some (v, false, s) := by
  simp [resolveCore, getCachedInstance_hit s i ckey true h, hg]

theorem resolveCore_perChild_miss (prog : List ClassDef) (s : St) (i : Nat)
    (t : Producer) (ckey : String) (h : hasKeyC s i ckey false = false) :
    resolveCore prog s i RT.perChild t ckey = construct prog s t := by
  simp [resolveCore, getCachedInstance_miss s i ckey false h]

theorem resolveCore_perChild_hit (prog : List ClassDef) (s : St) (i : Nat)
    (t : Producer) (ckey : String) (v : Value)
    (h : hasKeyC s i ckey false = true) (hg : getKeyC s i ckey false = some v) :
    resolveCore prog s i RT.perChild t ckey = some (v, false, s) := by
  simp [resolveCore, getCachedInstance_hit s i ckey false h, hg]

/-- C2 counterexample: the lifecycle short-circuit does not skip dependency
resolution.  With a Singleton class X declaring a Transient (NewInstance)
dependency D, the second resolve(X) returns the cached X instance yet runs
the constructor of D a second time, because resolveType resolves the
declared dependencies before the cache lookup.  The triple records the value
returned by the second call, the number of D constructions and the number of
X constructions after both calls. -/
theorem c2_counterexample :
    ((resolveSingle
        [⟨"X", some ⟨[⟨"D"⟩], RT.singleton⟩, Hook.nohook⟩,
         ⟨"D", some ⟨[], RT.newInstance⟩, Hook.nohook⟩] 8 initSt 0 "X").bind
      (fun r1 =>
        (resolveSingle
          [⟨"X", some ⟨[⟨"D"⟩], RT.singleton⟩, Hook.nohook⟩,
           ⟨"D", some ⟨[], RT.newInstance⟩, Hook.nohook⟩] 8 r1.2.2 0 "X").map
          (fun r2 => (r2.1, ctorCount "D" r2.2.2.log, ctorCount "X" r2.2.2.log)))) =
      some (Value.inst "X" 1, 2, 1) := by
  decide

theorem ctorCount_cons (n : String) (e : Event) (l : List Event) :
    ctorCount n (e :: l) = (if e.cls = n then 1 else 0) + ctorCount n l := by
  by_cases h : e.cls = n <;> simp [ctorCount, List.filter_cons, h, Nat.add_comm]

/-- C9 counterexample: the double-initialization window is open.  Two
same-tick resolutions of the Singleton class Asy, whose construction
suspends in an asynchronous hook, both pass the not-yet-cached check: the
constructor runs twice, the callers receive two distinct instances, and the
second completion overwrites the first one's cache entry. -/
theorem c9_counterexample :
    (concurrentPair [⟨"Asy", Option.none, Hook.asyncHook⟩] 5 initSt 0 "Asy").map
        (fun r => (r.1.1, r.1.2, ctorCount "Asy" r.2.log,
          (r.2.cont 0).map (fun c => lookupA c.cache "Asy"))) =
      some (Value.inst "Asy" 0, Value.inst "Asy" 1, 2,
        some (some (Value.inst "Asy" 1))) := by
  decide

/-- C9 amended: the implementation does not close the double-initialization
window.  For any Singleton identifier without declared dependencies whose
class construction suspends (asynchronous hook) and which is not yet cached,
two resolution calls issued in the same tick both construct: the underlying
constructor runs exactly twice and the two callers obtain distinct
instances; nothing makes the second caller await the first caller's
in-flight construction. -/
theorem c9_double_construction (prog : List ClassDef) (fuel : Nat) (s : St)
    (i : Nat) (ident n : String) (c : ContainerSt) (ts : List Producer)
    (cd : ClassDef)
    (hc : s.cont i = some c)
    (ht : (lookupA c.registry ident).getD [Producer.cls ident] =
      Producer.cls n :: ts)
    (hlook : lookupCls prog n = some cd)
    (hdinj : (cd.descr.getD defaultDescriptor).inject = [])
    (hdres : (cd.descr.getD defaultDescriptor).resolver = RT.singleton)
    (hhook : cd.hook = Hook.asyncHook)
    (hmiss : hasKeyC s i ident true = false) :
    ∃ s3, concurrentPair prog fuel s i ident =
        some ((Value.inst n s.nextUid, Value.inst n (s.nextUid + 1)), s3)
      ∧ Value.inst n s.nextUid ≠ Value.inst n (s.nextUid + 1)
      ∧ ctorCount n s3.log = ctorCount n s.log + 2 := by
  have hext : extractDescr prog (Producer.cls n) =
      some (cd.descr.getD defaultDescriptor) := by
    simp [extractDescr, hlook]
  have hcon1 : construct prog s (Producer.cls n) =
      some (Value.inst n s.nextUid, true,
        { s with nextUid := s.nextUid + 1,
                 log := ⟨n, s.nextUid, cd.hook⟩ :: s.log }) := by
    simp [construct, hlook, hhook]
  set s2 : St := { s with nextUid := s.nextUid + 1, log := ⟨n, s.nextUid, cd.hook⟩ :: s.log } with hs2
  have hmiss2 : hasKeyC s2 i ident true = false := by
    rw [hasKeyC_congr i s s2 ident true (fun j _ => rfl)]
    exact hmiss
  have hcon2 : construct prog s2 (Producer.cls n) =
      some (Value.inst n (s.nextUid + 1), true,
        { s2 with nextUid := s2.nextUid + 1,
                  log := ⟨n, s2.nextUid, cd.hook⟩ :: s2.log }) := by
    simp [construct, hlook, hhook, hs2]
  set s3p : St := { s2 with nextUid := s2.nextUid + 1, log := ⟨n, s2.nextUid, cd.hook⟩ :: s2.log } with hs3p
  refine ⟨setCacheSt (setCacheSt s3p i (cd.descr.getD defaultDescriptor).resolver
      ident (Value.inst n s.nextUid)) i
      (cd.descr.getD defaultDescriptor).resolver ident
      (Value.inst n (s.nextUid + 1)), ?_, by simp, ?_⟩
  · simp only [concurrentPair, hc, ht, hext, hdinj, resolveDeps_nil, hdres,
      resolveCore_singleton_miss prog s i (Producer.cls n) ident hmiss, hcon1,
      resolveCore_singleton_miss prog s2 i (Producer.cls n) ident hmiss2, hcon2]
  · rw [setCacheSt_log, setCacheSt_log, hs3p]
    simp only [hs2, ctorCount_cons]
    simp
    omega

/-- C9 amended, instantiated on the counterexample program. -/
theorem c9_double_construction_witness :
    ∃ s3, concurrentPair [⟨"Asy", Option.none, Hook.asyncHook⟩] 5 initSt 0 "Asy" =
        some ((Value.inst "Asy" 0, Value.inst "Asy" 1), s3)
      ∧ Value.inst "Asy" 0 ≠ Value.inst "Asy" 1
      ∧ ctorCount "Asy" s3.log = ctorCount "Asy" initSt.log + 2 :=
  c9_double_construction [⟨"Asy", Option.none, Hook.asyncHook⟩] 5 initSt 0
    "Asy" "Asy" (freshContainer Option.none 0) [] ⟨"Asy", Option.none, Hook.asyncHook⟩
    (by decide) (by decide) (by decide) (by decide) (by decide) (by decide) (by decide)

/-- Invariant: every container caches itself under the key Container
(established by registerSelf in the constructor and in clear()). -/
def SelfEntry (s : St) : Prop :=
  ∀ j cs, s.cont j = some cs → lookupA cs.cache "Container" = some (Value.cref j)

/-- Effect summary of one resolution step performed by container i: the log
grows by events with fresh uids whose classes lie in cls, the deferred flag
is exactly whether one of the new constructions had an asynchronous hook, no
other container is touched, the parent and registry of i are untouched,
existing cache entries of i keep their values, cache changes of i are
confined to the keys in ks, and the self-entry invariant is preserved. -/
def Eff (ks cls : List String) (i : Nat) (s s2 : St) (dfr : Bool) : Prop :=
  ∃ es : List Event, s2.log = es ++ s.log
    ∧ dfr = es.any (fun e => decide (e.hook = Hook.asyncHook))
    ∧ s.nextUid ≤ s2.nextUid
    ∧ (∀ e ∈ es, s.nextUid ≤ e.uid ∧ e.uid < s2.nextUid ∧ e.cls ∈ cls)
    ∧ s2.containers.length = s.containers.length
    ∧ (∀ j, j ≠ i → s2.cont j = s.cont j)
    ∧ (∀ cs, s.cont i = some cs → ∃ cs2, s2.cont i = some cs2
        ∧ cs2.parent = cs.parent ∧ cs2.registry = cs.registry
        ∧ (∀ key w, lookupA cs.cache key = some w → lookupA cs2.cache key = some w)
        ∧ (∀ key, lookupA cs2.cache key ≠ lookupA cs.cache key → key ∈ ks))
    ∧ (SelfEntry s → SelfEntry s2)

theorem Eff.refl (ks cls : List String) (i : Nat) (s : St) :
    Eff ks cls i s s false := by
  refine ⟨[], by simp, by simp, le_rfl, by simp, rfl, fun j _ => rfl, ?_, fun h => h⟩
  intro cs hcs
  exact ⟨cs, hcs, rfl, rfl, fun key w hw => hw, fun key hne => absurd rfl hne⟩

theorem Eff.weaken (ks cls ks2 cls2 : List String) (i : Nat) (s s2 : St)
    (dfr : Bool) (h : Eff ks cls i s s2 dfr) (hks : ks ⊆ ks2)
    (hcls : cls ⊆ cls2) : Eff ks2 cls2 i s s2 dfr := by
  obtain ⟨es, h1, h2, h3, h4, h5, h6, h7, h8⟩ := h
  refine ⟨es, h1, h2, h3, ?_, h5, h6, ?_, h8⟩
  · intro e he
    obtain ⟨a, b, c⟩ := h4 e he
    exact ⟨a, b, hcls c⟩
  · intro cs hcs
    obtain ⟨cs2, a, b, c, d, e⟩ := h7 cs hcs
    exact ⟨cs2, a, b, c, d, fun key hk => hks (e key hk)⟩

theorem Eff.comp (ks1 cls1 ks2 cls2 : List String) (i : Nat) (s s1 s2 : St)
    (d1 d2 : Bool) (h1 : Eff ks1 cls1 i s s1 d1) (h2 : Eff ks2 cls2 i s1 s2 d2) :
    Eff (ks1 ++ ks2) (cls1 ++ cls2) i s s2 (d1 || d2) := by
  obtain ⟨es1, a1, b1, c1, d1h, e1, f1, g1, i1⟩ := h1
  obtain ⟨es2, a2, b2, c2, d2h, e2, f2, g2, i2⟩ := h2
  refine ⟨es2 ++ es1, ?_, ?_, le_trans c1 c2, ?_, e2.trans e1, ?_, ?_, fun h => i2 (i1 h)⟩
  · rw [a2, a1, List.append_assoc]
  · rw [List.any_append, b1, b2, Bool.or_comm]
  · intro e he
    rcases List.mem_append.mp he with h | h
    · obtain ⟨a, b, c⟩ := d2h e h
      exact ⟨le_trans c1 a, b, List.mem_append_right _ c⟩
    · obtain ⟨a, b, c⟩ := d1h e h
      exact ⟨a, lt_of_lt_of_le b c2, List.mem_append_left _ c⟩
  · intro j hj
    rw [f2 j hj, f1 j hj]
  · intro cs hcs
    obtain ⟨csa, ha, hpa, hra, hka, hca⟩ := g1 cs hcs
    obtain ⟨csb, hb, hpb, hrb, hkb, hcb⟩ := g2 csa ha
    refine ⟨csb, hb, hpb.trans hpa, hrb.trans hra,
      fun key w hw => hkb key w (hka key w hw), ?_⟩
    intro key hne
    by_cases hmid : lookupA csa.cache key = lookupA cs.cache key
    · exact List.mem_append_right _ (hcb key (fun hh => hne (hh.trans hmid)))
    · exact List.mem_append_left _ (hca key hmid)

/-- A cached hit returns the container's own entry when one exists. -/
theorem getCachedInstance_some_own (s : St) (i : Nat) (ckey : String)
    (par : Bool) (w : Value) (cs : ContainerSt) (u : Value)
    (h : getCachedInstance s i ckey par = some w) (hcs : s.cont i = some cs)
    (hu : lookupA cs.cache ckey = some u) : u = w := by
  rw [getCachedInstance_hit s i ckey par (hasKeyC_hit s i ckey par cs u hcs hu),
    getKeyC_hit s i ckey par cs u hcs hu] at h
  exact (Option.some.injEq u w).mp h

/-- A cache miss means the container's own cache has no entry. -/
theorem getCachedInstance_none_own (s : St) (i : Nat) (ckey : String)
    (par : Bool) (cs : ContainerSt)
    (h : getCachedInstance s i ckey par = Option.none) (hcs : s.cont i = some cs) :
    lookupA cs.cache ckey = Option.none := by
  cases hu : lookupA cs.cache ckey with
  | none => rfl
  | some u =>
    rw [getCachedInstance_hit s i ckey par (hasKeyC_hit s i ckey par cs u hcs hu),
      getKeyC_hit s i ckey par cs u hcs hu] at h
    exact absurd h (by simp)

/-- With the self-entry invariant, the cached-instance probe for the key
Container always hits the requesting container itself. -/
theorem getCachedInstance_container (s : St) (i : Nat) (par : Bool)
    (cs : ContainerSt) (hse : SelfEntry s) (hcs : s.cont i = some cs) :
    getCachedInstance s i "Container" par = some (Value.cref i) := by
  have hown := hse i cs hcs
  rw [getCachedInstance_hit s i "Container" par
      (hasKeyC_hit s i "Container" par cs _ hcs hown),
    getKeyC_hit s i "Container" par cs _ hcs hown]

theorem Eff.ofConstruct (prog : List ClassDef) (s : St) (i : Nat)
    (p : Producer) (v : Value) (dfr : Bool) (s2 : St)
    (h : construct prog s p = some (v, dfr, s2)) :
    Eff [] [p.prodName] i s s2 dfr := by
  obtain ⟨hcont, hnext, e, hlog, huid, hcls, hdfr, hv⟩ := construct_effects prog s p v dfr s2 h
  have hcj : ∀ j, s2.cont j = s.cont j := by
    intro j
    show s2.containers[j]? = s.containers[j]?
    rw [hcont]
  refine ⟨[e], by simp [hlog], by simp [hdfr], by omega,
    ?_, by rw [hcont], fun j _ => hcj j, ?_, ?_⟩
  · intro e2 he2
    rw [List.mem_singleton] at he2
    subst he2
    exact ⟨le_of_eq huid.symm, by omega, by simp [hcls]⟩
  · intro cs hcs
    exact ⟨cs, (hcj i).trans hcs, rfl, rfl, fun key w hw => hw,
      fun key hne => absurd rfl hne⟩
  · intro hse j cs hcs
    exact hse j cs ((hcj j).symm.trans hcs)

theorem Eff.ofSetCache (s : St) (i : Nat) (r : RT) (ckey : String) (v : Value)
    (hv : ∀ cs, s.cont i = some cs →
      lookupA cs.cache ckey = Option.none ∨ lookupA cs.cache ckey = some v) :
    Eff [ckey] [] i s (setCacheSt s i r ckey v) false := by
  rcases setCacheSt_cases s i r ckey v with he | he
  · rw [he]; exact Eff.refl [ckey] [] i s
  · rw [he]
    refine ⟨[], by simp [updC_log], by simp, le_of_eq (updC_nextUid s i _).symm,
      by simp, updC_length s i _, fun j hj => cont_updC_other s i j _ hj, ?_, ?_⟩
    · intro cs hcs
      refine ⟨{ cs with cache := setA ckey v cs.cache }, ?_, rfl, rfl, ?_, ?_⟩
      · rw [cont_updC_self, hcs]; rfl
      · intro key w hw
        by_cases hk : ckey = key
        · subst hk
          rcases hv cs hcs with hn | hs
          · rw [hn] at hw; exact absurd hw (by simp)
          · rw [hs] at hw
            show lookupA (setA ckey v cs.cache) ckey = some w
            rw [lookupA_setA_same, hw]
        · show lookupA (setA ckey v cs.cache) key = some w
          rw [lookupA_setA_other ckey key v hk]
          exact hw
      · intro key hne
        by_cases hk : ckey = key
        · exact List.mem_singleton.mpr hk.symm
        · exfalso
          apply hne
          show lookupA (setA ckey v cs.cache) key = lookupA cs.cache key
          exact lookupA_setA_other ckey key v hk cs.cache
    · intro hse j cs2 hcs2
      by_cases hj : j = i
      · subst hj
        cases hcs : s.cont j with
        | none => rw [cont_updC_self, hcs] at hcs2; exact absurd hcs2 (by simp)
        | some cs =>
          rw [cont_updC_self, hcs] at hcs2
          have hcs2e : cs2 = { cs with cache := setA ckey v cs.cache } := by
            simpa using hcs2.symm
          subst hcs2e
          have hown := hse j cs hcs
          by_cases hk : ckey = "Container"
          · subst hk
            rcases hv cs hcs with hn | hs
            · rw [hn] at hown; exact absurd hown (by simp)
            · rw [hs] at hown
              show lookupA (setA "Container" v cs.cache) "Container" = _
              rw [lookupA_setA_same, ← hown]
          · show lookupA (setA ckey v cs.cache) "Container" = _
            rw [lookupA_setA_other ckey "Container" v hk]
            exact hown
      · rw [cont_updC_other s i j _ hj] at hcs2
        exact hse j cs2 hcs2

/-- Combined effect of _resolve followed by _setCache: one frame of
resolveType after its dependency phase.  At most the frame's cache key is
written, at most the frame's target is constructed, and an existing entry
under the cache key is never replaced by a different value, because the
cached read happens before the write and returns the container's own entry
when there is one. -/
theorem Eff.ofCoreCache (prog : List ClassDef) (s : St) (i : Nat) (r : RT)
    (target : Producer) (ckey : String) (v : Value) (d2 : Bool) (s2 : St)
    (hcore : resolveCore prog s i r target ckey = some (v, d2, s2)) :
    Eff [ckey] [target.prodName] i s (setCacheSt s2 i r ckey v) d2 := by
  cases r with
  | newInstance =>
    rw [resolveCore_new] at hcore
    have h1 := Eff.ofConstruct prog s i target v d2 s2 hcore
    show Eff [ckey] [target.prodName] i s s2 d2
    exact h1.weaken _ _ _ _ _ _ _ _ (by simp) (fun a ha => ha)
  | singleton =>
    rw [resolveCore] at hcore
    cases hcached : getCachedInstance s i ckey true with
    | none =>
      rw [hcached] at hcore
      have h1 := Eff.ofConstruct prog s i target v d2 s2 hcore
      obtain ⟨hcont, hnext, e, hlog, huid, hcls, hdfr, hv⟩ :=
        construct_effects prog s target v d2 s2 hcore
      have h2 : Eff [ckey] [] i s2 (setCacheSt s2 i RT.singleton ckey v) false := by
        apply Eff.ofSetCache
        intro cs2 hcs2
        left
        have hcs : s.cont i = some cs2 := by
          have hh : s2.cont i = s.cont i := by
            show s2.containers[i]? = s.containers[i]?
            rw [hcont]
          exact hh.symm.trans hcs2
        exact getCachedInstance_none_own s i ckey true cs2 hcached hcs
      have h3 := Eff.comp [] [target.prodName] [ckey] [] i s s2
        (setCacheSt s2 i RT.singleton ckey v) d2 false h1 h2
      simpa using h3
    | some w =>
      rw [hcached] at hcore
      have hw : w = v ∧ d2 = false ∧ s2 = s := by
        simp only [Option.some.injEq, Prod.mk.injEq] at hcore
        exact ⟨hcore.1, hcore.2.1.symm, hcore.2.2.symm⟩
      obtain ⟨hwv, hd2, hs2⟩ := hw
      subst hwv hd2 hs2
      have h2 : Eff [ckey] [] i s2 (setCacheSt s2 i RT.singleton ckey w) false := by
        apply Eff.ofSetCache
        intro cs hcs
        cases hl : lookupA cs.cache ckey with
        | none => exact Or.inl rfl
        | some u =>
          have huw := getCachedInstance_some_own s2 i ckey true w cs u hcached hcs hl
          exact Or.inr (by first | exact congrArg some huw | rw [hl, huw])
      exact h2.weaken _ _ _ _ _ _ _ _ (fun a ha => ha) (by simp)
  | perChild =>
    rw [resolveCore] at hcore
    cases hcached : getCachedInstance s i ckey false with
    | none =>
      rw [hcached] at hcore
      have h1 := Eff.ofConstruct prog s i target v d2 s2 hcore
      obtain ⟨hcont, hnext, e, hlog, huid, hcls, hdfr, hv⟩ :=
        construct_effects prog s target v d2 s2 hcore
      have h2 : Eff [ckey] [] i s2 (setCacheSt s2 i RT.perChild ckey v) false := by
        apply Eff.ofSetCache
        intro cs2 hcs2
        left
        have hcs : s.cont i = some cs2 := by
          have hh : s2.cont i = s.cont i := by
            show s2.containers[i]? = s.containers[i]?
            rw [hcont]
          exact hh.symm.trans hcs2
        exact getCachedInstance_none_own s i ckey false cs2 hcached hcs
      have h3 := Eff.comp [] [target.prodName] [ckey] [] i s s2
        (setCacheSt s2 i RT.perChild ckey v) d2 false h1 h2
      simpa using h3
    | some w =>
      rw [hcached] at hcore
      have hw : w = v ∧ d2 = false ∧ s2 = s := by
        simp only [Option.some.injEq, Prod.mk.injEq] at hcore
        exact ⟨hcore.1, hcore.2.1.symm, hcore.2.2.symm⟩
      obtain ⟨hwv, hd2, hs2⟩ := hw
      subst hwv hd2 hs2
      have h2 : Eff [ckey] [] i s2 (setCacheSt s2 i RT.perChild ckey w) false := by
        apply Eff.ofSetCache
        intro cs hcs
        cases hl : lookupA cs.cache ckey with
        | none => exact Or.inl rfl
        | some u =>
          have huw := getCachedInstance_some_own s2 i ckey false w cs u hcached hcs hl
          exact Or.inr (by first | exact congrArg some huw | rw [hl, huw])
      exact h2.weaken _ _ _ _ _ _ _ _ (fun a ha => ha) (by simp)

/-- Master effect lemma: a successful resolution request on container i is an
Eff step whose write keys and constructed classes are bounded by the static
mirror statF over the requesting container's registry, and whose deferred
flag is exactly whether an asynchronous construction happened. -/
theorem resolveF_eff (prog : List ClassDef) :
    ∀ fuel req s i c vs dfr s2,
      s.cont i = some c →
      resolveF prog fuel s i req = some (vs, dfr, s2) →
      Eff (statF prog c.registry fuel req).1 (statF prog c.registry fuel req).2
        i s s2 dfr := by
  intro fuel
  induction fuel with
  | zero =>
    intro req s i c vs dfr s2 hc h
    cases req with
    | one ident => exact absurd h (by simp [resolveF])
    | typ target ckey => exact absurd h (by simp [resolveF])
    | deps ts =>
      cases ts with
      | nil =>
        simp only [resolveF, Option.some.injEq, Prod.mk.injEq] at h
        obtain ⟨hvs, hdfr, hs2⟩ := h
        subst hdfr hs2
        exact Eff.refl _ _ i s
      | cons t rest => exact absurd h (by simp [resolveF])
    | targets ps =>
      cases ps with
      | nil =>
        simp only [resolveF, Option.some.injEq, Prod.mk.injEq] at h
        obtain ⟨hvs, hdfr, hs2⟩ := h
        subst hdfr hs2
        exact Eff.refl _ _ i s
      | cons pr rest => exact absurd h (by simp [resolveF])
  | succ f ih =>
    intro req s i c vs dfr s2 hc h
    cases req with
    | one ident =>
      simp only [resolveF, hc] at h
      cases htg : (lookupA c.registry ident).getD [Producer.cls ident] with
      | nil => simp only [htg] at h; exact absurd h (by simp)
      | cons t ts =>
        simp only [htg] at h
        have hst : statF prog c.registry (f + 1) (Req.one ident) =
            statF prog c.registry f (Req.typ t ident) := by
          simp [statF, htg]
        rw [hst]
        exact ih (Req.typ t ident) s i c vs dfr s2 hc h
    | typ target ckey =>
      simp only [resolveF] at h
      cases hd : extractDescr prog target with
      | none => simp only [hd] at h; exact absurd h (by simp)
      | some d =>
        simp only [hd] at h
        cases hdeps : resolveF prog f s i (Req.deps d.inject) with
        | none => simp only [hdeps] at h; exact absurd h (by simp)
        | some r1 =>
          obtain ⟨dv, d1, s1⟩ := r1
          simp only [hdeps] at h
          cases hcore : resolveCore prog s1 i d.resolver target ckey with
          | none => simp only [hcore] at h; exact absurd h (by simp)
          | some r2 =>
            obtain ⟨v, d2, s2m⟩ := r2
            simp only [hcore] at h
            simp only [Option.some.injEq, Prod.mk.injEq] at h
            obtain ⟨hvs, hdfr, hs2⟩ := h
            subst hdfr hs2
            have hEd := ih (Req.deps d.inject) s i c dv d1 s1 hc hdeps
            have hEc := Eff.ofCoreCache prog s1 i d.resolver target ckey v d2
              s2m hcore
            have hcomp := Eff.comp _ _ _ _ i s s1 _ d1 d2 hEd hEc
            have hst : statF prog c.registry (f + 1) (Req.typ target ckey) =
                (ckey :: (statF prog c.registry f (Req.deps d.inject)).1,
                  target.prodName ::
                    (statF prog c.registry f (Req.deps d.inject)).2) := by
              simp [statF, hd]
            rw [hst]
            apply hcomp.weaken
            · intro a ha
              simp only [List.mem_append, List.mem_singleton] at ha
              simp only [List.mem_cons]
              tauto
            · intro a ha
              simp only [List.mem_append, List.mem_singleton] at ha
              simp only [List.mem_cons]
              tauto
    | deps ts =>
      cases ts with
      | nil =>
        simp only [resolveF, Option.some.injEq, Prod.mk.injEq] at h
        obtain ⟨hvs, hdfr, hs2⟩ := h
        subst hdfr hs2
        exact Eff.refl _ _ i s
      | cons t rest =>
        simp only [resolveF] at h
        cases h1 : resolveF prog f s i (Req.one t.inject) with
        | none => simp only [h1] at h; exact absurd h (by simp)
        | some r1 =>
          obtain ⟨vs1, dd1, s1⟩ := r1
          simp only [h1] at h
          cases h2 : resolveF prog f s1 i (Req.deps rest) with
          | none => simp only [h2] at h; exact absurd h (by simp)
          | some r2 =>
            obtain ⟨vs2, dd2, s2m⟩ := r2
            simp only [h2] at h
            simp only [Option.some.injEq, Prod.mk.injEq] at h
            obtain ⟨hvs, hdfr, hs2⟩ := h
            subst hdfr hs2
            have hE1 := ih (Req.one t.inject) s i c vs1 dd1 s1 hc h1
            obtain ⟨_, _, _, _, _, _, _, hcont1, _⟩ := id hE1
            obtain ⟨c1, hc1, hp1, hr1, _, _⟩ := hcont1 c hc
            have hE2 := ih (Req.deps rest) s1 i c1 vs2 dd2 s2m hc1 h2
            rw [hr1] at hE2
            have hcomp := Eff.comp _ _ _ _ i s s1 s2m dd1 dd2 hE1 hE2
            have hst : statF prog c.registry (f + 1) (Req.deps (t :: rest)) =
                ((statF prog c.registry f (Req.one t.inject)).1 ++
                    (statF prog c.registry f (Req.deps rest)).1,
                  (statF prog c.registry f (Req.one t.inject)).2 ++
                    (statF prog c.registry f (Req.deps rest)).2) := by
              simp [statF]
            rw [hst]
            exact hcomp
    | targets ps =>
      cases ps with
      | nil =>
        simp only [resolveF, Option.some.injEq, Prod.mk.injEq] at h
        obtain ⟨hvs, hdfr, hs2⟩ := h
        subst hdfr hs2
        exact Eff.refl _ _ i s
      | cons pr rest =>
        simp only [resolveF] at h
        cases h1 : resolveF prog f s i (Req.typ pr pr.keyName) with
        | none => simp only [h1] at h; exact absurd h (by simp)
        | some r1 =>
          obtain ⟨vs1, dd1, s1⟩ := r1
          simp only [h1] at h
          cases h2 : resolveF prog f s1 i (Req.targets rest) with
          | none => simp only [h2] at h; exact absurd h (by simp)
          | some r2 =>
            obtain ⟨vs2, dd2, s2m⟩ := r2
            simp only [h2] at h
            simp only [Option.some.injEq, Prod.mk.injEq] at h
            obtain ⟨hvs, hdfr, hs2⟩ := h
            subst hdfr hs2
            have hE1 := ih (Req.typ pr pr.keyName) s i c vs1 dd1 s1 hc h1
            obtain ⟨_, _, _, _, _, _, _, hcont1, _⟩ := id hE1
            obtain ⟨c1, hc1, hp1, hr1, _, _⟩ := hcont1 c hc
            have hE2 := ih (Req.targets rest) s1 i c1 vs2 dd2 s2m hc1 h2
            rw [hr1] at hE2
            have hcomp := Eff.comp _ _ _ _ i s s1 s2m dd1 dd2 hE1 hE2
            have hst : statF prog c.registry (f + 1) (Req.targets (pr :: rest)) =
                ((statF prog c.registry f (Req.typ pr pr.keyName)).1 ++
                    (statF prog c.registry f (Req.targets rest)).1,
                  (statF prog c.registry f (Req.typ pr pr.keyName)).2 ++
                    (statF prog c.registry f (Req.targets rest)).2) := by
              simp [statF]
            rw [hst]
            exact hcomp

/-! Bridging lemmas between the executable Bool predicates and their
propositional readings, inversion of the resolver wrappers, and cache-read
lemmas. -/

theorem uncachedAll_spec (s : St) (n : String) (h : uncachedAll s n = true) :
    ∀ j cs, s.cont j = some cs → lookupA cs.cache n = Option.none := by
  intro j cs hcs
  have hmem : cs ∈ s.containers := List.getElem?_mem hcs
  have := (List.all_eq_true.mp h) cs hmem
  simpa using this

theorem regUnbound_spec (s : St) (n : String) (h : regUnbound s n = true) :
    ∀ j cs, s.cont j = some cs → lookupA cs.registry n = Option.none := by
  intro j cs hcs
  have hmem : cs ∈ s.containers := List.getElem?_mem hcs
  have := (List.all_eq_true.mp h) cs hmem
  simpa using this

theorem singHold_spec (cn : String) (ct : Nat) (v : Value) (s : St)
    (h : singHold cn ct v s = true) :
    (∃ cc, s.cont ct = some cc ∧ lookupA cc.cache cn = some v) ∧
      (∀ j cs, s.cont j = some cs →
        lookupA cs.cache cn = Option.none ∨ lookupA cs.cache cn = some v) := by
  rw [singHold, Bool.and_eq_true] at h
  obtain ⟨h1, h2⟩ := h
  constructor
  · cases hcc : s.cont ct with
    | none => simp only [hcc] at h1; exact absurd h1 (by simp)
    | some cc =>
      simp only [hcc] at h1
      exact ⟨cc, rfl, of_decide_eq_true h1⟩
  · intro j cs hcs
    have hmem : cs ∈ s.containers := List.getElem?_mem hcs
    have hthis := (List.all_eq_true.mp h2) cs hmem
    cases hl : lookupA cs.cache cn with
    | none => exact Or.inl rfl
    | some w =>
      simp only [hl] at hthis
      right
      exact congrArg some (of_decide_eq_true hthis)

theorem singHold_build (cn : String) (ct : Nat) (v : Value) (s : St)
    (h1 : ∃ cc, s.cont ct = some cc ∧ lookupA cc.cache cn = some v)
    (h2 : ∀ j cs, s.cont j = some cs →
      lookupA cs.cache cn = Option.none ∨ lookupA cs.cache cn = some v) :
    singHold cn ct v s = true := by
  rw [singHold, Bool.and_eq_true]
  constructor
  · obtain ⟨cc, hcc, hl⟩ := h1
    rw [hcc]
    simp [hl]
  · rw [List.all_eq_true]
    intro cs hmem
    obtain ⟨j, hjlt, hj⟩ := List.getElem_of_mem hmem
    have hcs : s.cont j = some cs := by
      show s.containers[j]? = some cs
      rw [List.getElem?_eq_getElem hjlt]
      exact congrArg some hj
    rcases h2 j cs hcs with hn | hs
    · simp [hn]
    · simp [hs]

/-- If no container caches a key, the upward probe fails everywhere. -/
theorem uncached_hasKeyC (s : St) (key : String)
    (h : ∀ j cs, s.cont j = some cs → lookupA cs.cache key = Option.none) :
    ∀ i par, hasKeyC s i key par = false := by
  intro i
  induction i using Nat.strong_induction_on with
  | _ i ih =>
    intro par
    cases hc : s.cont i with
    | none => exact hasKeyC_none s i key par hc
    | some c =>
      have hl := h i c hc
      cases hp : c.parent with
      | none => exact hasKeyC_root_miss s i key par c hc hl hp
      | some p =>
        cases par with
        | false => exact hasKeyC_local_miss s i key c hc hl
        | true =>
          by_cases hpi : p < i
          · rw [hasKeyC_up s i key c p hc hl hp hpi]
            exact ih p hpi true
          · exact hasKeyC_stuck s i key c p hc hl hp hpi

theorem chainOf_stuck (s : St) (i : Nat) (c : ContainerSt) (p : Nat)
    (h : s.cont i = some c) (hp : c.parent = some p) (hnpi : ¬ p < i) :
    chainOf s i = [i] := by
  show chainB s (i + 1) i = [i]
  simp [chainB, h, hp, hnpi]

/-- Reading along the chain: when every entry under the key agrees on one
value and the key is present at some chain member, the upward probe from any
descendant succeeds with that value. -/
theorem chain_read (s : St) (cn : String) (v : Value)
    (hall : ∀ j cs, s.cont j = some cs →
      lookupA cs.cache cn = Option.none ∨ lookupA cs.cache cn = some v) :
    ∀ d ct, ct ∈ chainOf s d →
      (∃ cc, s.cont ct = some cc ∧ lookupA cc.cache cn = some v) →
      hasKeyC s d cn true = true ∧ getKeyC s d cn true = some v := by
  intro d
  induction d using Nat.strong_induction_on with
  | _ d ih =>
    intro ct hchain hct
    obtain ⟨cc, hcc, hlv⟩ := hct
    cases hc : s.cont d with
    | none =>
      rw [chainOf_missing s d hc] at hchain
      have hdct : ct = d := by simpa using hchain
      subst hdct
      rw [hcc] at hc
      exact absurd hc (by simp)
    | some c =>
      cases hl : lookupA c.cache cn with
      | some w =>
        have hw : w = v := by
          rcases hall d c hc with hn | hs
          · rw [hn] at hl; exact absurd hl (by simp)
          · rw [hs] at hl; simpa using hl.symm
        subst hw
        exact ⟨hasKeyC_hit s d cn true c w hc hl, getKeyC_hit s d cn true c w hc hl⟩
      | none =>
        have hne : ct ≠ d := by
          intro hh
          subst hh
          rw [hcc] at hc
          have hcce : cc = c := by simpa using hc
          subst hcce
          rw [hlv] at hl
          exact absurd hl (by simp)
        cases hp : c.parent with
        | none =>
          rw [chainOf_root s d c hc hp] at hchain
          exact absurd (by simpa using hchain) hne
        | some p =>
          by_cases hpi : p < d
          · rw [chainOf_up s d c p hc hp hpi] at hchain
            have hmem : ct ∈ chainOf s p := by
              rcases List.mem_cons.mp hchain with hh | hh
              · exact absurd hh hne
              · exact hh
            have := ih p hpi ct hmem ⟨cc, hcc, hlv⟩
            rw [hasKeyC_up s d cn c p hc hl hp hpi,
              getKeyC_up s d cn c p hc hl hp hpi]
            exact this
          · rw [chainOf_stuck s d c p hc hp hpi] at hchain
            exact absurd (by simpa using hchain) hne

theorem ctorCount_append_none (cn : String) (es l : List Event)
    (h : ∀ e ∈ es, e.cls ≠ cn) : ctorCount cn (es ++ l) = ctorCount cn l := by
  induction es with
  | nil => rfl
  | cons e r ih =>
    rw [List.cons_append, ctorCount_cons, if_neg (h e (by simp)),
      ih (fun x hx => h x (by simp [hx]))]
    omega

theorem uncachedAll_build (s : St) (n : String)
    (h : ∀ j cs, s.cont j = some cs → lookupA cs.cache n = Option.none) :
    uncachedAll s n = true := by
  rw [uncachedAll, List.all_eq_true]
  intro cs hmem
  obtain ⟨j, hjlt, hj⟩ := List.getElem_of_mem hmem
  have hcs : s.cont j = some cs := by
    show s.containers[j]? = some cs
    rw [List.getElem?_eq_getElem hjlt]
    exact congrArg some hj
  simp [h j cs hcs]

theorem regUnbound_build (s : St) (n : String)
    (h : ∀ j cs, s.cont j = some cs → lookupA cs.registry n = Option.none) :
    regUnbound s n = true := by
  rw [regUnbound, List.all_eq_true]
  intro cs hmem
  obtain ⟨j, hjlt, hj⟩ := List.getElem_of_mem hmem
  have hcs : s.cont j = some cs := by
    show s.containers[j]? = some cs
    rw [List.getElem?_eq_getElem hjlt]
    exact congrArg some hj
  simp [h j cs hcs]

/-- An Eff step whose write keys avoid a key preserves that key's absence
from every cache. -/
theorem uncached_eff (ks cls : List String) (i : Nat) (s s2 : St) (dfr : Bool)
    (key : String) (c : ContainerSt)
    (hE : Eff ks cls i s s2 dfr) (hc : s.cont i = some c) (hk : key ∉ ks)
    (h : ∀ j cs, s.cont j = some cs → lookupA cs.cache key = Option.none) :
    ∀ j cs, s2.cont j = some cs → lookupA cs.cache key = Option.none := by
  obtain ⟨es, _, _, _, _, _, hother, hself, _⟩ := hE
  intro j cs hcs
  by_cases hj : j = i
  · subst hj
    obtain ⟨cs2, hcs2, _, _, _, hch⟩ := hself c hc
    have hcse : cs = cs2 := by
      rw [hcs2] at hcs
      simpa using hcs.symm
    subst hcse
    by_cases hchg : lookupA cs.cache key = lookupA c.cache key
    · rw [hchg]
      exact h j c hc
    · exact absurd (hch key hchg) hk
  · rw [hother j hj] at hcs
    exact h j cs hcs

/-- An Eff step whose write keys avoid the identifier preserves singHold. -/
theorem singHold_eff (ks cls : List String) (i : Nat) (s s2 : St) (dfr : Bool)
    (cn : String) (ct : Nat) (v : Value) (c : ContainerSt)
    (hE : Eff ks cls i s s2 dfr) (hc : s.cont i = some c) (hk : cn ∉ ks)
    (h : singHold cn ct v s = true) : singHold cn ct v s2 = true := by
  obtain ⟨hex, hall⟩ := singHold_spec cn ct v s h
  obtain ⟨es, _, _, _, _, _, hother, hself, _⟩ := hE
  have hkeep : ∀ j cs2, s2.cont j = some cs2 →
      ∃ cs, s.cont j = some cs ∧ lookupA cs2.cache cn = lookupA cs.cache cn := by
    intro j cs2 hcs2
    by_cases hj : j = i
    · subst hj
      obtain ⟨cs3, hcs3, _, _, _, hch⟩ := hself c hc
      have hcse : cs2 = cs3 := by
        rw [hcs3] at hcs2
        exact (by simpa using hcs2 : cs3 = cs2).symm
      subst hcse
      refine ⟨c, hc, ?_⟩
      by_cases hchg : lookupA cs2.cache cn = lookupA c.cache cn
      · exact hchg
      · exact absurd (hch cn hchg) hk
    · rw [hother j hj] at hcs2
      exact ⟨cs2, hcs2, rfl⟩
  apply singHold_build
  · obtain ⟨cc, hcc, hl⟩ := hex
    by_cases hj : ct = i
    · subst hj
      obtain ⟨cs3, hcs3, _, _, hpres, _⟩ := hself c hc
      have hce : cc = c := by rw [hcc] at hc; simpa using hc
      subst hce
      exact ⟨cs3, hcs3, hpres cn v hl⟩
    · rw [← hother ct hj] at hcc
      exact ⟨cc, hcc, hl⟩
  · intro j cs hcs
    obtain ⟨cs0, hcs0, heq⟩ := hkeep j cs hcs
    rw [heq]
    exact hall j cs0 hcs0

/-- The parent chain depends only on the parent pointers at index at most
d. -/
theorem chainOf_congr :
    ∀ d, ∀ s s2 : St,
      (∀ j, j ≤ d → (s2.cont j).map (fun c => c.parent) =
        (s.cont j).map (fun c => c.parent)) →
      chainOf s2 d = chainOf s d := by
  intro d
  induction d using Nat.strong_induction_on with
  | _ d ih =>
    intro s s2 h
    have hd := h d le_rfl
    cases hc : s.cont d with
    | none =>
      rw [hc] at hd
      cases hc2 : s2.cont d with
      | none => rw [chainOf_missing s d hc, chainOf_missing s2 d hc2]
      | some c2 => rw [hc2] at hd; exact absurd hd (by simp)
    | some c =>
      rw [hc] at hd
      cases hc2 : s2.cont d with
      | none => rw [hc2] at hd; exact absurd hd (by simp)
      | some c2 =>
        rw [hc2] at hd
        have hpar : c2.parent = c.parent := by simpa using hd
        cases hp : c.parent with
        | none =>
          rw [chainOf_root s d c hc hp, chainOf_root s2 d c2 hc2 (hpar.trans hp)]
        | some p =>
          by_cases hpi : p < d
          · rw [chainOf_up s d c p hc hp hpi,
              chainOf_up s2 d c2 p hc2 (hpar.trans hp) hpi,
              ih p hpi s s2 (fun j hj => h j (by omega))]
          · rw [chainOf_stuck s d c p hc hp hpi,
              chainOf_stuck s2 d c2 p hc2 (hpar.trans hp) hpi]

/-- Inversion of a successful single resolution through a class target:
the dependency phase ran first, then _resolve, then _setCache. -/
theorem resolveSingle_split (prog : List ClassDef) (f : Nat) (s : St) (i : Nat)
    (ident : String) (v : Value) (dfr : Bool) (s2 : St) (c : ContainerSt)
    (t : Producer) (ts : List Producer)
    (hc : s.cont i = some c)
    (htg : (lookupA c.registry ident).getD [Producer.cls ident] = t :: ts)
    (h : resolveSingle prog (f + 2) s i ident = some (v, dfr, s2)) :
    ∃ d dv d1 s1 d2 s2m,
      extractDescr prog t = some d
      ∧ resolveDeps prog f s i d.inject = some (dv, d1, s1)
      ∧ resolveCore prog s1 i d.resolver t ident = some (v, d2, s2m)
      ∧ dfr = (d1 || d2)
      ∧ s2 = setCacheSt s2m i d.resolver ident v := by
  unfold resolveSingle at h
  have hF1 : resolveF prog (f + 2) s i (Req.one ident) =
      resolveF prog (f + 1) s i (Req.typ t ident) := by
    simp [resolveF, hc, htg]
  rw [hF1] at h
  simp only [resolveF] at h
  cases hd : extractDescr prog t with
  | none => simp only [hd] at h; exact absurd h (by simp)
  | some d =>
    simp only [hd] at h
    cases hdeps : resolveF prog f s i (Req.deps d.inject) with
    | none => simp only [hdeps] at h; exact absurd h (by simp)
    | some r1 =>
      obtain ⟨dv, d1, s1⟩ := r1
      simp only [hdeps] at h
      cases hcore : resolveCore prog s1 i d.resolver t ident with
      | none => simp only [hcore] at h; exact absurd h (by simp)
      | some r2 =>
        obtain ⟨w, d2, s2m⟩ := r2
        simp only [hcore, Option.some.injEq, Prod.mk.injEq] at h
        obtain ⟨hw, hdfr, hs2⟩ := h
        subst hw hdfr
        exact ⟨d, dv, d1, s1, d2, s2m, rfl, hdeps, hcore, rfl, hs2.symm⟩

/-- Registries are untouched by an Eff step. -/
theorem regUnbound_eff (ks cls : List String) (i : Nat) (s s2 : St)
    (dfr : Bool) (n : String) (c : ContainerSt)
    (hE : Eff ks cls i s s2 dfr) (hc : s.cont i = some c)
    (h : regUnbound s n = true) : regUnbound s2 n = true := by
  obtain ⟨es, _, _, _, _, _, hother, hself, _⟩ := hE
  apply regUnbound_build
  intro j cs hcs
  by_cases hj : j = i
  · subst hj
    obtain ⟨cs2, hcs2, _, hrg, _, _⟩ := hself c hc
    have hcse : cs = cs2 := by rw [hcs2] at hcs; simpa using hcs.symm
    subst hcse
    rw [hrg]
    exact regUnbound_spec s n h j c hc
  · rw [hother j hj] at hcs
    exact regUnbound_spec s n h j cs hcs

/-- Registries are untouched by _setCache. -/
theorem regUnbound_setCache (s : St) (i : Nat) (r : RT) (ckey : String)
    (v : Value) (n : String) (h : regUnbound s n = true) :
    regUnbound (setCacheSt s i r ckey v) n = true := by
  rcases setCacheSt_cases s i r ckey v with he | he <;> rw [he]
  · exact h
  · apply regUnbound_build
    intro j cs hcs
    by_cases hj : j = i
    · subst hj
      cases hcj : s.cont j with
      | none => rw [cont_updC_self, hcj] at hcs; exact absurd hcs (by simp)
      | some cj =>
        rw [cont_updC_self, hcj] at hcs
        have : cs = { cj with cache := setA ckey v cj.cache } := by simpa using hcs.symm
        subst this
        exact regUnbound_spec s n h j cj hcj
    · rw [cont_updC_other s i j _ hj] at hcs
      exact regUnbound_spec s n h j cs hcs

/-- Writing the held value under the held key preserves singHold. -/
theorem singHold_setCacheSelf (cn : String) (ct : Nat) (v : Value) (s : St)
    (j : Nat) (r : RT) (h : singHold cn ct v s = true) :
    singHold cn ct v (setCacheSt s j r cn v) = true := by
  rcases setCacheSt_cases s j r cn v with he | he <;> rw [he]
  · exact h
  · obtain ⟨hex, hall⟩ := singHold_spec cn ct v s h
    apply singHold_build
    · obtain ⟨cc, hcc, hl⟩ := hex
      by_cases hj : ct = j
      · subst hj
        refine ⟨{ cc with cache := setA cn v cc.cache }, ?_, ?_⟩
        · rw [cont_updC_self, hcc]; rfl
        · exact lookupA_setA_same cn v cc.cache
      · rw [← cont_updC_other s j ct _ hj] at hcc
        exact ⟨cc, hcc, hl⟩
    · intro j2 cs hcs
      by_cases hj : j2 = j
      · subst hj
        cases hcj : s.cont j2 with
        | none => rw [cont_updC_self, hcj] at hcs; exact absurd hcs (by simp)
        | some cj =>
          rw [cont_updC_self, hcj] at hcs
          have : cs = { cj with cache := setA cn v cj.cache } := by
            simpa using hcs.symm
          subst this
          right
          exact lookupA_setA_same cn v cj.cache
      · rw [cont_updC_other s j j2 _ hj] at hcs
        exact hall j2 cs hcs


/-- C1: for an identifier whose merged descriptor has the Singleton
lifecycle (self-resolving: no registry binding anywhere, so the identifier
is its own producer), resolution on a container and on any of its
descendants yields one instance.  Part one: the first resolution from a
state where the identifier is cached nowhere constructs it exactly once,
returns a fresh instance of the class, and establishes the cache discipline
singHold (the resolving container holds the instance and every other entry
for the name agrees).  Part two: from any state with that discipline, a
resolution on the container itself or on any of its descendants returns the
same instance, runs the constructor zero further times, and re-establishes
the discipline, so any number of subsequent resolutions keeps returning the
first instance.  The statF hypotheses say that the dependency closure of
the class neither writes the identifier's cache key nor constructs its
class nor writes the guard key Function (their failure would mean a
dependency cycle through the identifier, which never completes a resolution
at all). -/
theorem c1_singleton_one_instance (prog : List ClassDef) (cn : String)
    (cd : ClassDef)
    (hcls : lookupCls prog cn = some cd)
    (hres : (cd.descr.getD defaultDescriptor).resolver = RT.singleton) :
    (∀ f s ct cs v b1 s1,
      regUnbound s cn = true →
      uncachedAll s cn = true →
      uncachedAll s "Function" = true →
      s.cont ct = some cs →
      cn ∉ (statF prog cs.registry f
        (Req.deps (cd.descr.getD defaultDescriptor).inject)).1 →
      cn ∉ (statF prog cs.registry f
        (Req.deps (cd.descr.getD defaultDescriptor).inject)).2 →
      "Function" ∉ (statF prog cs.registry f
        (Req.deps (cd.descr.getD defaultDescriptor).inject)).1 →
      resolveSingle prog (f + 2) s ct cn = some (v, b1, s1) →
      singHold cn ct v s1 = true
        ∧ ctorCount cn s1.log = ctorCount cn s.log + 1
        ∧ (∃ u, s.nextUid ≤ u ∧ v = Value.inst cn u)
        ∧ regUnbound s1 cn = true)
    ∧ (∀ f s ct dsc cs v v2 b2 s2,
      regUnbound s cn = true →
      singHold cn ct v s = true →
      s.cont dsc = some cs →
      isDescOf s dsc ct = true →
      cn ∉ (statF prog cs.registry f
        (Req.deps (cd.descr.getD defaultDescriptor).inject)).1 →
      cn ∉ (statF prog cs.registry f
        (Req.deps (cd.descr.getD defaultDescriptor).inject)).2 →
      resolveSingle prog (f + 2) s dsc cn = some (v2, b2, s2) →
      v2 = v
        ∧ ctorCount cn s2.log = ctorCount cn s.log
        ∧ singHold cn ct v s2 = true
        ∧ regUnbound s2 cn = true) := by
  have hext : extractDescr prog (Producer.cls cn) =
      some (cd.descr.getD defaultDescriptor) := by
    simp [extractDescr, hcls]
  constructor
  · -- first resolution
    intro f s ct cs v b1 s1 hreg hfresh hfun hcs hk1 hk2 hkf h
    have htg : (lookupA cs.registry cn).getD [Producer.cls cn] =
        [Producer.cls cn] := by
      rw [regUnbound_spec s cn hreg ct cs hcs]
      rfl
    obtain ⟨d, dv, d1, s1m, d2, s2m, hd, hdeps, hcore, hdfr, hs1⟩ :=
      resolveSingle_split prog f s ct cn v b1 s1 cs (Producer.cls cn) [] hcs htg h
    have hdd : d = cd.descr.getD defaultDescriptor := by
      rw [hext] at hd
      exact (by simpa using hd : cd.descr.getD defaultDescriptor = d).symm
    subst hdd
    have hE := resolveF_eff prog f
      (Req.deps (cd.descr.getD defaultDescriptor).inject) s ct cs dv d1 s1m
      hcs hdeps
    have hfresh1 : ∀ j cjs, s1m.cont j = some cjs →
        lookupA cjs.cache cn = Option.none :=
      uncached_eff _ _ ct s s1m d1 cn cs hE hcs hk1 (uncachedAll_spec s cn hfresh)
    have hfun1 : ∀ j cjs, s1m.cont j = some cjs →
        lookupA cjs.cache "Function" = Option.none :=
      uncached_eff _ _ ct s s1m d1 "Function" cs hE hcs hkf
        (uncachedAll_spec s "Function" hfun)
    have hmiss : hasKeyC s1m ct cn true = false :=
      uncached_hasKeyC s1m cn hfresh1 ct true
    rw [hres] at hcore hs1
    rw [resolveCore_singleton_miss prog s1m ct _ cn hmiss] at hcore
    obtain ⟨hcont2, hnext2, e, hlog2, huid2, hcls2, hdfr2, hv⟩ :=
      construct_effects prog s1m (Producer.cls cn) v d2 s2m hcore
    have hcj2 : ∀ j, s2m.cont j = s1m.cont j := by
      intro j
      show s2m.containers[j]? = s1m.containers[j]?
      rw [hcont2]
    have hfun2 : ∀ j cjs, s2m.cont j = some cjs →
        lookupA cjs.cache "Function" = Option.none := by
      intro j cjs hcjs
      exact hfun1 j cjs ((hcj2 j).symm.trans hcjs)
    have hguard : hasKeyC s2m ct "Function" true = false :=
      uncached_hasKeyC s2m "Function" hfun2 ct true
    have hset : setCacheSt s2m ct RT.singleton cn v =
        updC s2m ct (fun c => { c with cache := setA cn v c.cache }) := by
      simp [setCacheSt, hguard]
    obtain ⟨es, hlog1, hdf1, hnext1, hescls, hlen1, hother1, hself1, hse1⟩ :=
      id hE
    obtain ⟨cs1m, hcs1m, hp1m, hr1m, hpres1m, hch1m⟩ := hself1 cs hcs
    have hcs2m : s2m.cont ct = some cs1m := (hcj2 ct).trans hcs1m
    refine ⟨?_, ?_, ?_, ?_⟩
    · -- singHold established
      rw [hs1, hset]
      apply singHold_build
      · refine ⟨{ cs1m with cache := setA cn v cs1m.cache }, ?_, ?_⟩
        · rw [cont_updC_self, hcs2m]
          rfl
        · exact lookupA_setA_same cn v cs1m.cache
      · intro j cjs hcjs
        by_cases hj : j = ct
        · subst hj
          rw [cont_updC_self, hcs2m] at hcjs
          have hje : cjs = { cs1m with cache := setA cn v cs1m.cache } := by
            simpa using hcjs.symm
          subst hje
          right
          exact lookupA_setA_same cn v cs1m.cache
        · rw [cont_updC_other s2m ct j _ hj] at hcjs
          left
          exact hfresh1 j cjs ((hcj2 j).symm.trans hcjs)
    · -- constructor count
      rw [hs1, setCacheSt_log, hlog2, hlog1, ctorCount_cons,
        if_pos (by rw [hcls2]; rfl),
        ctorCount_append_none cn es s.log ?hne]
      · omega
      case hne =>
        intro e2 he2 hcl
        exact hk2 (hcl ▸ (hescls e2 he2).2.2)
    · -- the returned value is a fresh instance of the class
      exact ⟨s1m.nextUid, hnext1, by rw [hv]; rfl⟩
    · -- registries unchanged
      have hru1 : regUnbound s1m cn = true :=
        regUnbound_eff _ _ ct s s1m d1 cn cs hE hcs hreg
      have hru2 : regUnbound s2m cn = true := by
        rw [regUnbound, hcont2]
        exact hru1
      rw [hs1]
      exact regUnbound_setCache s2m ct RT.singleton cn v cn hru2
  · -- subsequent resolution on the container or a descendant
    intro f s ct dsc cs v v2 b2 s2 hreg hhold hcs hdesc hk1 hk2 h
    have htg : (lookupA cs.registry cn).getD [Producer.cls cn] =
        [Producer.cls cn] := by
      rw [regUnbound_spec s cn hreg dsc cs hcs]
      rfl
    obtain ⟨d, dv, d1, s1m, d2, s2m, hd, hdeps, hcore, hdfr, hs2⟩ :=
      resolveSingle_split prog f s dsc cn v2 b2 s2 cs (Producer.cls cn) [] hcs htg h
    have hdd : d = cd.descr.getD defaultDescriptor := by
      rw [hext] at hd
      exact (by simpa using hd : cd.descr.getD defaultDescriptor = d).symm
    subst hdd
    have hE := resolveF_eff prog f
      (Req.deps (cd.descr.getD defaultDescriptor).inject) s dsc cs dv d1 s1m
      hcs hdeps
    have hhold1 : singHold cn ct v s1m = true :=
      singHold_eff _ _ dsc s s1m d1 cn ct v cs hE hcs hk1 hhold
    have hchain1 : chainOf s1m dsc = chainOf s dsc := by
      obtain ⟨es, _, _, _, _, _, hother1, hself1, _⟩ := id hE
      apply chainOf_congr
      intro j hj
      by_cases hjd : j = dsc
      · subst hjd
        obtain ⟨cs1m, hcs1m, hp1m, _, _, _⟩ := hself1 cs hcs
        rw [hcs1m, hcs]
        simp [hp1m]
      · rw [hother1 j hjd]
    obtain ⟨hex1, hall1⟩ := singHold_spec cn ct v s1m hhold1
    have hmem : ct ∈ chainOf s1m dsc := by
      rw [hchain1]
      exact of_decide_eq_true hdesc
    have hread := chain_read s1m cn v hall1 dsc ct hmem hex1
    rw [hres] at hcore hs2
    rw [resolveCore_singleton_hit prog s1m dsc (Producer.cls cn) cn v
      hread.1 hread.2] at hcore
    simp only [Option.some.injEq, Prod.mk.injEq] at hcore
    obtain ⟨hv2e, hd2e, hs2me⟩ := hcore
    obtain ⟨es, hlog1, _, _, hescls, _, _, _, _⟩ := id hE
    refine ⟨hv2e.symm, ?_, ?_, ?_⟩
    · rw [hs2, ← hs2me, setCacheSt_log, hlog1,
        ctorCount_append_none cn es s.log ?hne2]
      case hne2 =>
        intro e2 he2 hcl
        exact hk2 (hcl ▸ (hescls e2 he2).2.2)
    · rw [hs2, ← hs2me, ← hv2e]
      exact singHold_setCacheSelf cn ct v s1m dsc RT.singleton hhold1
    · rw [hs2, ← hs2me]
      apply regUnbound_setCache
      exact regUnbound_eff _ _ dsc s s1m d1 cn cs hE hcs hreg

/-- Witness for C1: the class Foo with no attached descriptor (hence the
default Singleton lifecycle) is resolved once on the root container and
once on its child; the first resolution constructs the single instance and
the second returns it without constructing again. -/
theorem c1_singleton_one_instance_witness :
    (lookupCls [(⟨"Foo", Option.none, Hook.nohook⟩ : ClassDef)] "Foo" =
        some ⟨"Foo", Option.none, Hook.nohook⟩)
    ∧ (∃ v b1 s1,
        resolveSingle [(⟨"Foo", Option.none, Hook.nohook⟩ : ClassDef)] 2
            (childC initSt 0).1 0 "Foo" = some (v, b1, s1)
          ∧ singHold "Foo" 0 v s1 = true
          ∧ ctorCount "Foo" s1.log =
              ctorCount "Foo" (childC initSt 0).1.log + 1
          ∧ regUnbound s1 "Foo" = true)
    ∧ (∃ v2 b2 s2,
        resolveSingle [(⟨"Foo", Option.none, Hook.nohook⟩ : ClassDef)] 2
            (⟨[⟨Option.none, [],
                 [("Container", Value.cref 0), ("Foo", Value.inst "Foo" 0)]⟩,
               ⟨some 0, [], [("Container", Value.cref 1)]⟩], 1,
              [⟨"Foo", 0, Hook.nohook⟩]⟩ : St) 1 "Foo" = some (v2, b2, s2)
          ∧ v2 = Value.inst "Foo" 0
          ∧ ctorCount "Foo" s2.log = 1
          ∧ singHold "Foo" 0 (Value.inst "Foo" 0) s2 = true) := by
  have hA := (c1_singleton_one_instance
      [(⟨"Foo", Option.none, Hook.nohook⟩ : ClassDef)] "Foo"
      ⟨"Foo", Option.none, Hook.nohook⟩ (by decide) (by decide)).1
    0 (childC initSt 0).1 0 (freshContainer Option.none 0)
    (Value.inst "Foo" 0) false
    (⟨[⟨Option.none, [],
         [("Container", Value.cref 0), ("Foo", Value.inst "Foo" 0)]⟩,
       ⟨some 0, [], [("Container", Value.cref 1)]⟩], 1,
      [⟨"Foo", 0, Hook.nohook⟩]⟩ : St)
    (by decide) (by decide) (by decide) (by decide) (by decide) (by decide)
    (by decide) (by decide)
  have hB := (c1_singleton_one_instance
      [(⟨"Foo", Option.none, Hook.nohook⟩ : ClassDef)] "Foo"
      ⟨"Foo", Option.none, Hook.nohook⟩ (by decide) (by decide)).2
    0
    (⟨[⟨Option.none, [],
         [("Container", Value.cref 0), ("Foo", Value.inst "Foo" 0)]⟩,
       ⟨some 0, [], [("Container", Value.cref 1)]⟩], 1,
      [⟨"Foo", 0, Hook.nohook⟩]⟩ : St)
    0 1 (⟨some 0, [], [("Container", Value.cref 1)]⟩ : ContainerSt)
    (Value.inst "Foo" 0) (Value.inst "Foo" 0) false
    (⟨[⟨Option.none, [],
         [("Container", Value.cref 0), ("Foo", Value.inst "Foo" 0)]⟩,
       ⟨some 0, [],
         [("Container", Value.cref 1), ("Foo", Value.inst "Foo" 0)]⟩], 1,
      [⟨"Foo", 0, Hook.nohook⟩]⟩ : St)
    (by decide) (by decide) (by decide) (by decide) (by decide) (by decide)
    (by decide)
  refine ⟨by decide, ⟨Value.inst "Foo" 0, false, _, by decide,
      hA.1, by decide, hA.2.2.2⟩,
    ⟨Value.inst "Foo" 0, false, _, by decide, hB.1, by decide, hB.2.2.1⟩⟩

/-- C4: for an identifier whose descriptor has the per-child-container
lifecycle (self-resolving: no registry binding anywhere), the cache lookup
never walks to ancestors.  Part one: a resolution on any container whose
OWN cache lacks the identifier constructs a fresh instance — regardless of
what any ancestor caches — stores it in that container's own cache, leaves
every other container untouched, and the new uid is strictly below the
resulting uid counter (so two such resolutions on different containers
yield distinct instances).  Part two: a resolution on a container whose own
cache already holds the identifier returns that held instance, constructs
nothing, keeps the entry, and leaves every other container untouched (so
the root's instance is unaffected by child resolutions and vice versa). -/
theorem c4_per_child_scoping (prog : List ClassDef) (cn : String)
    (cd : ClassDef)
    (hcls : lookupCls prog cn = some cd)
    (hres : (cd.descr.getD defaultDescriptor).resolver = RT.perChild) :
    (∀ f s d csd v b1 s1,
      regUnbound s cn = true →
      uncachedAll s "Function" = true →
      s.cont d = some csd →
      lookupA csd.cache cn = Option.none →
      cn ∉ (statF prog csd.registry f
        (Req.deps (cd.descr.getD defaultDescriptor).inject)).1 →
      cn ∉ (statF prog csd.registry f
        (Req.deps (cd.descr.getD defaultDescriptor).inject)).2 →
      "Function" ∉ (statF prog csd.registry f
        (Req.deps (cd.descr.getD defaultDescriptor).inject)).1 →
      resolveSingle prog (f + 2) s d cn = some (v, b1, s1) →
      (∃ u, s.nextUid ≤ u ∧ u < s1.nextUid ∧ v = Value.inst cn u)
        ∧ ctorCount cn s1.log = ctorCount cn s.log + 1
        ∧ (∃ cc, s1.cont d = some cc ∧ lookupA cc.cache cn = some v)
        ∧ (∀ j, j ≠ d → s1.cont j = s.cont j))
    ∧ (∀ f s d csd v v2 b2 s2,
      regUnbound s cn = true →
      s.cont d = some csd →
      lookupA csd.cache cn = some v →
      cn ∉ (statF prog csd.registry f
        (Req.deps (cd.descr.getD defaultDescriptor).inject)).1 →
      cn ∉ (statF prog csd.registry f
        (Req.deps (cd.descr.getD defaultDescriptor).inject)).2 →
      resolveSingle prog (f + 2) s d cn = some (v2, b2, s2) →
      v2 = v
        ∧ ctorCount cn s2.log = ctorCount cn s.log
        ∧ (∃ cc, s2.cont d = some cc ∧ lookupA cc.cache cn = some v)
        ∧ (∀ j, j ≠ d → s2.cont j = s.cont j)) := by
  have hext : extractDescr prog (Producer.cls cn) =
      some (cd.descr.getD defaultDescriptor) := by
    simp [extractDescr, hcls]
  constructor
  · -- own cache misses: construct locally whatever the ancestors hold
    intro f s d csd v b1 s1 hreg hfun hcs hloc hk1 hk2 hkf h
    have htg : (lookupA csd.registry cn).getD [Producer.cls cn] =
        [Producer.cls cn] := by
      rw [regUnbound_spec s cn hreg d csd hcs]
      rfl
    obtain ⟨dsc, dv, d1, s1m, d2, s2m, hd, hdeps, hcore, hdfr, hs1⟩ :=
      resolveSingle_split prog f s d cn v b1 s1 csd (Producer.cls cn) [] hcs htg h
    have hdd : dsc = cd.descr.getD defaultDescriptor := by
      rw [hext] at hd
      exact (by simpa using hd : cd.descr.getD defaultDescriptor = dsc).symm
    subst hdd
    have hE := resolveF_eff prog f
      (Req.deps (cd.descr.getD defaultDescriptor).inject) s d csd dv d1 s1m
      hcs hdeps
    obtain ⟨es, hlog1, hdf1, hnext1, hescls, hlen1, hother1, hself1, hse1⟩ :=
      id hE
    obtain ⟨cs1m, hcs1m, hp1m, hr1m, hpres1m, hch1m⟩ := hself1 csd hcs
    have hl1 : lookupA cs1m.cache cn = Option.none := by
      by_cases hchg : lookupA cs1m.cache cn = lookupA csd.cache cn
      · rw [hchg]
        exact hloc
      · exact absurd (hch1m cn hchg) hk1
    have hmiss : hasKeyC s1m d cn false = false :=
      hasKeyC_local_miss s1m d cn cs1m hcs1m hl1
    rw [hres] at hcore hs1
    rw [resolveCore_perChild_miss prog s1m d _ cn hmiss] at hcore
    obtain ⟨hcont2, hnext2, e, hlog2, huid2, hcls2, hdfr2, hv⟩ :=
      construct_effects prog s1m (Producer.cls cn) v d2 s2m hcore
    have hcj2 : ∀ j, s2m.cont j = s1m.cont j := by
      intro j
      show s2m.containers[j]? = s1m.containers[j]?
      rw [hcont2]
    have hfun1 : ∀ j cjs, s1m.cont j = some cjs →
        lookupA cjs.cache "Function" = Option.none :=
      uncached_eff _ _ d s s1m d1 "Function" csd hE hcs hkf
        (uncachedAll_spec s "Function" hfun)
    have hfun2 : ∀ j cjs, s2m.cont j = some cjs →
        lookupA cjs.cache "Function" = Option.none := by
      intro j cjs hcjs
      exact hfun1 j cjs ((hcj2 j).symm.trans hcjs)
    have hguard : hasKeyC s2m d "Function" false = false :=
      uncached_hasKeyC s2m "Function" hfun2 d false
    have hset : setCacheSt s2m d RT.perChild cn v =
        updC s2m d (fun c => { c with cache := setA cn v c.cache }) := by
      simp [setCacheSt, hguard]
    have hcs2m : s2m.cont d = some cs1m := (hcj2 d).trans hcs1m
    refine ⟨?_, ?_, ?_, ?_⟩
    · -- fresh instance with uid below the final counter
      refine ⟨s1m.nextUid, hnext1, ?_, by rw [hv]; rfl⟩
      rw [hs1, setCacheSt_nextUid, hnext2]
      omega
    · -- constructor count
      rw [hs1, setCacheSt_log, hlog2, hlog1, ctorCount_cons,
        if_pos (by rw [hcls2]; rfl),
        ctorCount_append_none cn es s.log ?hne]
      · omega
      case hne =>
        intro e2 he2 hcl
        exact hk2 (hcl ▸ (hescls e2 he2).2.2)
    · -- the instance is cached in the requesting container's own cache
      rw [hs1, hset]
      refine ⟨{ cs1m with cache := setA cn v cs1m.cache }, ?_, ?_⟩
      · rw [cont_updC_self, hcs2m]
        rfl
      · exact lookupA_setA_same cn v cs1m.cache
    · -- every other container is untouched
      intro j hj
      rw [hs1, setCacheSt_cont_other s2m d j RT.perChild cn v hj, hcj2 j]
      exact hother1 j hj
  · -- own cache hits: return the held instance, construct nothing
    intro f s d csd v v2 b2 s2 hreg hcs hloc hk1 hk2 h
    have htg : (lookupA csd.registry cn).getD [Producer.cls cn] =
        [Producer.cls cn] := by
      rw [regUnbound_spec s cn hreg d csd hcs]
      rfl
    obtain ⟨dsc, dv, d1, s1m, d2, s2m, hd, hdeps, hcore, hdfr, hs2⟩ :=
      resolveSingle_split prog f s d cn v2 b2 s2 csd (Producer.cls cn) [] hcs htg h
    have hdd : dsc = cd.descr.getD defaultDescriptor := by
      rw [hext] at hd
      exact (by simpa using hd : cd.descr.getD defaultDescriptor = dsc).symm
    subst hdd
    have hE := resolveF_eff prog f
      (Req.deps (cd.descr.getD defaultDescriptor).inject) s d csd dv d1 s1m
      hcs hdeps
    obtain ⟨es, hlog1, hdf1, hnext1, hescls, hlen1, hother1, hself1, hse1⟩ :=
      id hE
    obtain ⟨cs1m, hcs1m, hp1m, hr1m, hpres1m, hch1m⟩ := hself1 csd hcs
    have hl1 : lookupA cs1m.cache cn = some v := hpres1m cn v hloc
    rw [hres] at hcore hs2
    rw [resolveCore_perChild_hit prog s1m d (Producer.cls cn) cn v
      (hasKeyC_hit s1m d cn false cs1m v hcs1m hl1)
      (getKeyC_hit s1m d cn false cs1m v hcs1m hl1)] at hcore
    simp only [Option.some.injEq, Prod.mk.injEq] at hcore
    obtain ⟨hv2e, hd2e, hs2me⟩ := hcore
    refine ⟨hv2e.symm, ?_, ?_, ?_⟩
    · rw [hs2, ← hs2me, setCacheSt_log, hlog1,
        ctorCount_append_none cn es s.log ?hne2]
      case hne2 =>
        intro e2 he2 hcl
        exact hk2 (hcl ▸ (hescls e2 he2).2.2)
    · rw [hs2, ← hs2me, ← hv2e]
      rcases setCacheSt_cases s1m d RT.perChild cn v with he | he <;> rw [he]
      · exact ⟨cs1m, hcs1m, hl1⟩
      · refine ⟨{ cs1m with cache := setA cn v cs1m.cache }, ?_, ?_⟩
        · rw [cont_updC_self, hcs1m]
          rfl
        · exact lookupA_setA_same cn v cs1m.cache
    · intro j hj
      rw [hs2, ← hs2me, setCacheSt_cont_other s1m d j RT.perChild cn v2 hj]
      exact hother1 j hj

/-- Witness for C4: class Bar carries a per-child-container descriptor; the
root already holds its own Bar instance (uid 0); resolving Bar on the child
ignores the root's cached instance, constructs the distinct instance uid 1
and caches it at the child while leaving the root's entry unchanged;
resolving Bar on the child again returns that same instance without a
further construction. -/
theorem c4_per_child_scoping_witness :
    (lookupCls [(⟨"Bar", some ⟨[], RT.perChild⟩, Hook.nohook⟩ : ClassDef)]
        "Bar" = some ⟨"Bar", some ⟨[], RT.perChild⟩, Hook.nohook⟩)
    ∧ (∃ v b1 s1,
        resolveSingle [(⟨"Bar", some ⟨[], RT.perChild⟩, Hook.nohook⟩ : ClassDef)] 2
            (⟨[⟨Option.none, [],
                 [("Container", Value.cref 0), ("Bar", Value.inst "Bar" 0)]⟩,
               ⟨some 0, [], [("Container", Value.cref 1)]⟩], 1,
              [⟨"Bar", 0, Hook.nohook⟩]⟩ : St) 1 "Bar" = some (v, b1, s1)
          ∧ (∃ u, 1 ≤ u ∧ v = Value.inst "Bar" u)
          ∧ ctorCount "Bar" s1.log = 2
          ∧ (∃ cc, s1.cont 1 = some cc ∧ lookupA cc.cache "Bar" = some v)
          ∧ s1.cont 0 = some ⟨Option.none, [],
              [("Container", Value.cref 0), ("Bar", Value.inst "Bar" 0)]⟩)
    ∧ (∃ v2 b2 s2,
        resolveSingle [(⟨"Bar", some ⟨[], RT.perChild⟩, Hook.nohook⟩ : ClassDef)] 2
            (⟨[⟨Option.none, [],
                 [("Container", Value.cref 0), ("Bar", Value.inst "Bar" 0)]⟩,
               ⟨some 0, [],
                 [("Container", Value.cref 1), ("Bar", Value.inst "Bar" 1)]⟩], 2,
              [⟨"Bar", 1, Hook.nohook⟩, ⟨"Bar", 0, Hook.nohook⟩]⟩ : St) 1 "Bar"
            = some (v2, b2, s2)
          ∧ v2 = Value.inst "Bar" 1
          ∧ ctorCount "Bar" s2.log = 2
          ∧ s2.cont 0 = some ⟨Option.none, [],
              [("Container", Value.cref 0), ("Bar", Value.inst "Bar" 0)]⟩) := by
  have hA := (c4_per_child_scoping
      [(⟨"Bar", some ⟨[], RT.perChild⟩, Hook.nohook⟩ : ClassDef)] "Bar"
      ⟨"Bar", some ⟨[], RT.perChild⟩, Hook.nohook⟩ (by decide) (by decide)).1
    0
    (⟨[⟨Option.none, [],
         [("Container", Value.cref 0), ("Bar", Value.inst "Bar" 0)]⟩,
       ⟨some 0, [], [("Container", Value.cref 1)]⟩], 1,
      [⟨"Bar", 0, Hook.nohook⟩]⟩ : St)
    1 (⟨some 0, [], [("Container", Value.cref 1)]⟩ : ContainerSt)
    (Value.inst "Bar" 1) false
    (⟨[⟨Option.none, [],
         [("Container", Value.cref 0), ("Bar", Value.inst "Bar" 0)]⟩,
       ⟨some 0, [],
         [("Container", Value.cref 1), ("Bar", Value.inst "Bar" 1)]⟩], 2,
      [⟨"Bar", 1, Hook.nohook⟩, ⟨"Bar", 0, Hook.nohook⟩]⟩ : St)
    (by decide) (by decide) (by decide) (by decide) (by decide) (by decide)
    (by decide) (by decide)
  have hB := (c4_per_child_scoping
      [(⟨"Bar", some ⟨[], RT.perChild⟩, Hook.nohook⟩ : ClassDef)] "Bar"
      ⟨"Bar", some ⟨[], RT.perChild⟩, Hook.nohook⟩ (by decide) (by decide)).2
    0
    (⟨[⟨Option.none, [],
         [("Container", Value.cref 0), ("Bar", Value.inst "Bar" 0)]⟩,
       ⟨some 0, [],
         [("Container", Value.cref 1), ("Bar", Value.inst "Bar" 1)]⟩], 2,
      [⟨"Bar", 1, Hook.nohook⟩, ⟨"Bar", 0, Hook.nohook⟩]⟩ : St)
    1 (⟨some 0, [],
         [("Container", Value.cref 1), ("Bar", Value.inst "Bar" 1)]⟩ : ContainerSt)
    (Value.inst "Bar" 1) (Value.inst "Bar" 1) false
    (⟨[⟨Option.none, [],
         [("Container", Value.cref 0), ("Bar", Value.inst "Bar" 0)]⟩,
       ⟨some 0, [],
         [("Container", Value.cref 1), ("Bar", Value.inst "Bar" 1)]⟩], 2,
      [⟨"Bar", 1, Hook.nohook⟩, ⟨"Bar", 0, Hook.nohook⟩]⟩ : St)
    (by decide) (by decide) (by decide) (by decide) (by decide) (by decide)
  refine ⟨by decide, ⟨Value.inst "Bar" 1, false, _, by decide, ?_,
      by decide, hA.2.2.1, hA.2.2.2 0 (by decide) |>.trans (by decide)⟩,
    ⟨Value.inst "Bar" 1, false, _, by decide, hB.1, by decide,
      hB.2.2.2 0 (by decide) |>.trans (by decide)⟩⟩
  obtain ⟨u, hu1, hu2, hu3⟩ := hA.1
  exact ⟨u, hu1, hu3⟩

/-- C3: for an identifier whose descriptor has the NewInstance (Transient)
lifecycle (self-resolving: no registry binding anywhere), a resolution from
a state in which the identifier appears in no container's instance cache
constructs exactly one fresh instance whose uid is at least the old counter
and strictly below the new one — so iterating the theorem N times yields N
instances with strictly increasing, hence pairwise distinct, uids and N
constructor runs — and afterwards the identifier again appears in no
container's instance cache: _setCache is the identity for NewInstance, so a
Transient identifier is never stored in any cache. -/
theorem c3_transient_never_cached (prog : List ClassDef) (cn : String)
    (cd : ClassDef)
    (hcls : lookupCls prog cn = some cd)
    (hres : (cd.descr.getD defaultDescriptor).resolver = RT.newInstance) :
    ∀ f s d csd v b1 s1,
      regUnbound s cn = true →
      uncachedAll s cn = true →
      s.cont d = some csd →
      cn ∉ (statF prog csd.registry f
        (Req.deps (cd.descr.getD defaultDescriptor).inject)).1 →
      cn ∉ (statF prog csd.registry f
        (Req.deps (cd.descr.getD defaultDescriptor).inject)).2 →
      resolveSingle prog (f + 2) s d cn = some (v, b1, s1) →
      (∃ u, s.nextUid ≤ u ∧ u < s1.nextUid ∧ v = Value.inst cn u)
        ∧ ctorCount cn s1.log = ctorCount cn s.log + 1
        ∧ uncachedAll s1 cn = true
        ∧ regUnbound s1 cn = true := by
  have hext : extractDescr prog (Producer.cls cn) =
      some (cd.descr.getD defaultDescriptor) := by
    simp [extractDescr, hcls]
  intro f s d csd v b1 s1 hreg hfresh hcs hk1 hk2 h
  have htg : (lookupA csd.registry cn).getD [Producer.cls cn] =
      [Producer.cls cn] := by
    rw [regUnbound_spec s cn hreg d csd hcs]
    rfl
  obtain ⟨dsc, dv, d1, s1m, d2, s2m, hd, hdeps, hcore, hdfr, hs1⟩ :=
    resolveSingle_split prog f s d cn v b1 s1 csd (Producer.cls cn) [] hcs htg h
  have hdd : dsc = cd.descr.getD defaultDescriptor := by
    rw [hext] at hd
    exact (by simpa using hd : cd.descr.getD defaultDescriptor = dsc).symm
  subst hdd
  have hE := resolveF_eff prog f
    (Req.deps (cd.descr.getD defaultDescriptor).inject) s d csd dv d1 s1m
    hcs hdeps
  obtain ⟨es, hlog1, hdf1, hnext1, hescls, hlen1, hother1, hself1, hse1⟩ :=
    id hE
  have hfresh1 : ∀ j cjs, s1m.cont j = some cjs →
      lookupA cjs.cache cn = Option.none :=
    uncached_eff _ _ d s s1m d1 cn csd hE hcs hk1 (uncachedAll_spec s cn hfresh)
  rw [hres] at hcore hs1
  rw [resolveCore_new prog s1m d (Producer.cls cn) cn] at hcore
  obtain ⟨hcont2, hnext2, e, hlog2, huid2, hcls2, hdfr2, hv⟩ :=
    construct_effects prog s1m (Producer.cls cn) v d2 s2m hcore
  have hcj2 : ∀ j, s2m.cont j = s1m.cont j := by
    intro j
    show s2m.containers[j]? = s1m.containers[j]?
    rw [hcont2]
  simp only [setCacheSt] at hs1
  refine ⟨?_, ?_, ?_, ?_⟩
  · refine ⟨s1m.nextUid, hnext1, ?_, by rw [hv]; rfl⟩
    rw [hs1, hnext2]
    omega
  · rw [hs1, hlog2, hlog1, ctorCount_cons,
      if_pos (by rw [hcls2]; rfl),
      ctorCount_append_none cn es s.log ?hne]
    · omega
    case hne =>
      intro e2 he2 hcl
      exact hk2 (hcl ▸ (hescls e2 he2).2.2)
  · apply uncachedAll_build
    intro j cjs hcjs
    rw [hs1] at hcjs
    exact hfresh1 j cjs ((hcj2 j).symm.trans hcjs)
  · rw [hs1]
    have hru1 : regUnbound s1m cn = true :=
      regUnbound_eff _ _ d s s1m d1 cn csd hE hcs hreg
    rw [regUnbound, hcont2]
    exact hru1

/-- Witness for C3: class Baz carries a NewInstance descriptor; two
consecutive resolutions on the root construct the two distinct instances
uid 0 and uid 1, run the constructor twice in total, and leave Baz absent
from every instance cache after each call. -/
theorem c3_transient_never_cached_witness :
    (lookupCls [(⟨"Baz", some ⟨[], RT.newInstance⟩, Hook.nohook⟩ : ClassDef)]
        "Baz" = some ⟨"Baz", some ⟨[], RT.newInstance⟩, Hook.nohook⟩)
    ∧ (∃ v b1 s1,
        resolveSingle
            [(⟨"Baz", some ⟨[], RT.newInstance⟩, Hook.nohook⟩ : ClassDef)] 2
            initSt 0 "Baz" = some (v, b1, s1)
          ∧ v = Value.inst "Baz" 0
          ∧ ctorCount "Baz" s1.log = 1
          ∧ uncachedAll s1 "Baz" = true)
    ∧ (∃ v2 b2 s2,
        resolveSingle
            [(⟨"Baz", some ⟨[], RT.newInstance⟩, Hook.nohook⟩ : ClassDef)] 2
            (⟨[⟨Option.none, [], [("Container", Value.cref 0)]⟩], 1,
              [⟨"Baz", 0, Hook.nohook⟩]⟩ : St) 0 "Baz" = some (v2, b2, s2)
          ∧ v2 = Value.inst "Baz" 1
          ∧ v2 ≠ Value.inst "Baz" 0
          ∧ ctorCount "Baz" s2.log = 2
          ∧ uncachedAll s2 "Baz" = true) := by
  have hA := c3_transient_never_cached
    [(⟨"Baz", some ⟨[], RT.newInstance⟩, Hook.nohook⟩ : ClassDef)] "Baz"
    ⟨"Baz", some ⟨[], RT.newInstance⟩, Hook.nohook⟩ (by decide) (by decide)
    0 initSt 0 (freshContainer Option.none 0) (Value.inst "Baz" 0) false
    (⟨[⟨Option.none, [], [("Container", Value.cref 0)]⟩], 1,
      [⟨"Baz", 0, Hook.nohook⟩]⟩ : St)
    (by decide) (by decide) (by decide) (by decide) (by decide) (by decide)
  have hB := c3_transient_never_cached
    [(⟨"Baz", some ⟨[], RT.newInstance⟩, Hook.nohook⟩ : ClassDef)] "Baz"
    ⟨"Baz", some ⟨[], RT.newInstance⟩, Hook.nohook⟩ (by decide) (by decide)
    0 (⟨[⟨Option.none, [], [("Container", Value.cref 0)]⟩], 1,
      [⟨"Baz", 0, Hook.nohook⟩]⟩ : St)
    0 (freshContainer Option.none 0) (Value.inst "Baz" 1) false
    (⟨[⟨Option.none, [], [("Container", Value.cref 0)]⟩], 2,
      [⟨"Baz", 1, Hook.nohook⟩, ⟨"Baz", 0, Hook.nohook⟩]⟩ : St)
    (by decide) (by decide) (by decide) (by decide) (by decide) (by decide)
  exact ⟨by decide,
    ⟨Value.inst "Baz" 0, false, _, by decide, by decide, by decide,
      hA.2.2.1⟩,
    ⟨Value.inst "Baz" 1, false, _, by decide, by decide, by decide,
      by decide, hB.2.2.1⟩⟩

/-- Empty dependency lists resolve trivially at any fuel. -/
theorem resolveF_deps_nil_any (prog : List ClassDef) (f : Nat) (s : St)
    (i : Nat) : resolveF prog f s i (Req.deps []) = some ([], false, s) := by
  cases f <;> rfl

/-- Empty target lists resolve trivially at any fuel. -/
theorem resolveF_targets_nil_any (prog : List ClassDef) (f : Nat) (s : St)
    (i : Nat) : resolveF prog f s i (Req.targets []) = some ([], false, s) := by
  cases f <;> rfl

/-- One step of the multi-resolution fold: the head producer is resolved
first, then the rest in the state it produced, and the value lists are
concatenated in that order. -/
theorem resolveF_targets_cons (prog : List ClassDef) (f : Nat) (s : St)
    (i : Nat) (p : Producer) (ps : List Producer) (vs1 : List Value)
    (dfr1 : Bool) (s1 : St) (vs2 : List Value) (dfr2 : Bool) (s2 : St)
    (h1 : resolveF prog f s i (Req.typ p (Producer.keyName p)) =
      some (vs1, dfr1, s1))
    (h2 : resolveF prog f s1 i (Req.targets ps) = some (vs2, dfr2, s2)) :
    resolveF prog (f + 1) s i (Req.targets (p :: ps)) =
      some (vs1 ++ vs2, dfr1 || dfr2, s2) := by
  simp only [resolveF, h1, h2]

/-- A producer whose descriptor declares no dependencies and the NewInstance
lifecycle resolves by one bare construction: nothing is read from or written
to any cache. -/
theorem resolveF_typ_new (prog : List ClassDef) (f : Nat) (s : St) (i : Nat)
    (t : Producer) (ck : String) (d : InjDescriptor) (v : Value) (dfr : Bool)
    (s2 : St)
    (hd : extractDescr prog t = some d)
    (hi : d.inject = [])
    (hr : d.resolver = RT.newInstance)
    (hcon : construct prog s t = some (v, dfr, s2)) :
    resolveF prog (f + 1) s i (Req.typ t ck) = some ([v], dfr, s2) := by
  have hdeps : resolveF prog f s i (Req.deps d.inject) = some ([], false, s) := by
    rw [hi]
    exact resolveF_deps_nil_any prog f s i
  simp only [resolveF, hd, hdeps, hr, resolveCore, hcon, setCacheSt,
    Bool.false_or]

/-- C5: when the producers A then B are registered under the identifier X in
that order (here: two classes with dependency-free NewInstance descriptors,
so that each resolution is one bare construction), multi-resolution of X
returns the instance of A and then the instance of B in registration order —
the uids show A was constructed first — and single resolution of X returns
the instance produced by the first registered producer, A (index 0 of the
binding list). -/
theorem c5_multi_binding_order (prog : List ClassDef) (x a b : String)
    (cda cdb : ClassDef)
    (ha : lookupCls prog a = some cda)
    (hb : lookupCls prog b = some cdb)
    (hia : (cda.descr.getD defaultDescriptor).inject = [])
    (hib : (cdb.descr.getD defaultDescriptor).inject = [])
    (hra : (cda.descr.getD defaultDescriptor).resolver = RT.newInstance)
    (hrb : (cdb.descr.getD defaultDescriptor).resolver = RT.newInstance) :
    ∀ s i c,
      s.cont i = some c →
      lookupA c.registry x = some [Producer.cls a, Producer.cls b] →
      (∃ dfr s2,
        resolveMany prog 4 s i x =
          some ([Value.inst a s.nextUid, Value.inst b (s.nextUid + 1)], dfr, s2))
        ∧ (∃ b1 s1,
          resolveSingle prog 2 s i x = some (Value.inst a s.nextUid, b1, s1)) := by
  intro s i c hc hx
  have hea : extractDescr prog (Producer.cls a) =
      some (cda.descr.getD defaultDescriptor) := by
    simp [extractDescr, ha]
  have heb : extractDescr prog (Producer.cls b) =
      some (cdb.descr.getD defaultDescriptor) := by
    simp [extractDescr, hb]
  have hconA : construct prog s (Producer.cls a) =
      some (Value.inst a s.nextUid, decide (cda.hook = Hook.asyncHook),
        { s with nextUid := s.nextUid + 1,
                 log := ⟨a, s.nextUid, cda.hook⟩ :: s.log }) := by
    simp [construct, ha]
  have hconB : construct prog
      ({ s with nextUid := s.nextUid + 1,
                log := ⟨a, s.nextUid, cda.hook⟩ :: s.log } : St)
      (Producer.cls b) =
      some (Value.inst b (s.nextUid + 1), decide (cdb.hook = Hook.asyncHook),
        { s with nextUid := s.nextUid + 1 + 1,
                 log := ⟨b, s.nextUid + 1, cdb.hook⟩ ::
                   ⟨a, s.nextUid, cda.hook⟩ :: s.log }) := by
    simp [construct, hb]
  have hA : resolveF prog 2 s i
      (Req.typ (Producer.cls a) (Producer.keyName (Producer.cls a))) =
      some ([Value.inst a s.nextUid], decide (cda.hook = Hook.asyncHook),
        { s with nextUid := s.nextUid + 1,
                 log := ⟨a, s.nextUid, cda.hook⟩ :: s.log }) :=
    resolveF_typ_new prog 1 s i (Producer.cls a) _ _ _ _ _ hea hia hra hconA
  have hB : resolveF prog 1
      ({ s with nextUid := s.nextUid + 1,
                log := ⟨a, s.nextUid, cda.hook⟩ :: s.log } : St) i
      (Req.typ (Producer.cls b) (Producer.keyName (Producer.cls b))) =
      some ([Value.inst b (s.nextUid + 1)], decide (cdb.hook = Hook.asyncHook),
        { s with nextUid := s.nextUid + 1 + 1,
                 log := ⟨b, s.nextUid + 1, cdb.hook⟩ ::
                   ⟨a, s.nextUid, cda.hook⟩ :: s.log }) :=
    resolveF_typ_new prog 0 _ i (Producer.cls b) _ _ _ _ _ heb hib hrb hconB
  have hBs : resolveF prog 2
      ({ s with nextUid := s.nextUid + 1,
                log := ⟨a, s.nextUid, cda.hook⟩ :: s.log } : St) i
      (Req.targets [Producer.cls b]) =
      some ([Value.inst b (s.nextUid + 1)] ++ [],
        decide (cdb.hook = Hook.asyncHook) || false,
        { s with nextUid := s.nextUid + 1 + 1,
                 log := ⟨b, s.nextUid + 1, cdb.hook⟩ ::
                   ⟨a, s.nextUid, cda.hook⟩ :: s.log }) :=
    resolveF_targets_cons prog 1 _ i (Producer.cls b) [] _ _ _ _ _ _ hB
      (resolveF_targets_nil_any prog 1 _ i)
  have hAB : resolveF prog 3 s i
      (Req.targets [Producer.cls a, Producer.cls b]) =
      some ([Value.inst a s.nextUid] ++ ([Value.inst b (s.nextUid + 1)] ++ []),
        decide (cda.hook = Hook.asyncHook) ||
          (decide (cdb.hook = Hook.asyncHook) || false),
        { s with nextUid := s.nextUid + 1 + 1,
                 log := ⟨b, s.nextUid + 1, cdb.hook⟩ ::
                   ⟨a, s.nextUid, cda.hook⟩ :: s.log }) :=
    resolveF_targets_cons prog 2 s i (Producer.cls a) [Producer.cls b]
      _ _ _ _ _ _ hA hBs
  constructor
  · refine ⟨decide (cda.hook = Hook.asyncHook) ||
      (decide (cdb.hook = Hook.asyncHook) || false),
      { s with nextUid := s.nextUid + 1 + 1,
               log := ⟨b, s.nextUid + 1, cdb.hook⟩ ::
                 ⟨a, s.nextUid, cda.hook⟩ :: s.log }, ?_⟩
    show (match s.cont i with
      | Option.none => Option.none
      | some c => resolveF prog 3 s i
          (Req.targets ((lookupA c.registry x).getD [Producer.cls x]))) =
      some ([Value.inst a s.nextUid, Value.inst b (s.nextUid + 1)], _, _)
    rw [hc]
    simp only [hx, Option.getD_some]
    rw [hAB]
    simp
  · refine ⟨decide (cda.hook = Hook.asyncHook),
      { s with nextUid := s.nextUid + 1,
               log := ⟨a, s.nextUid, cda.hook⟩ :: s.log }, ?_⟩
    have hone : resolveF prog 2 s i (Req.one x) =
        resolveF prog 1 s i (Req.typ (Producer.cls a) x) := by
      simp only [resolveF, hc, hx, Option.getD_some]
    have htypA : resolveF prog 1 s i (Req.typ (Producer.cls a) x) =
        some ([Value.inst a s.nextUid], decide (cda.hook = Hook.asyncHook),
          { s with nextUid := s.nextUid + 1,
                   log := ⟨a, s.nextUid, cda.hook⟩ :: s.log }) :=
      resolveF_typ_new prog 0 s i (Producer.cls a) x _ _ _ _ hea hia hra hconA
    rw [resolveSingle, hone, htypA]

/-- Witness for C5: ImplA then ImplB are registered under X in that order;
multi-resolution of X returns [instance of ImplA, instance of ImplB] and
single resolution of X returns the instance of ImplA. -/
theorem c5_multi_binding_order_witness :
    (∃ dfr s2,
      resolveMany
        [(⟨"ImplA", some ⟨[], RT.newInstance⟩, Hook.nohook⟩ : ClassDef),
         ⟨"ImplB", some ⟨[], RT.newInstance⟩, Hook.nohook⟩] 4
        (⟨[⟨Option.none,
             [("X", [Producer.cls "ImplA", Producer.cls "ImplB"])],
             [("Container", Value.cref 0)]⟩], 0, []⟩ : St) 0 "X" =
        some ([Value.inst "ImplA" 0, Value.inst "ImplB" 1], dfr, s2))
    ∧ (∃ b1 s1,
      resolveSingle
        [(⟨"ImplA", some ⟨[], RT.newInstance⟩, Hook.nohook⟩ : ClassDef),
         ⟨"ImplB", some ⟨[], RT.newInstance⟩, Hook.nohook⟩] 2
        (⟨[⟨Option.none,
             [("X", [Producer.cls "ImplA", Producer.cls "ImplB"])],
             [("Container", Value.cref 0)]⟩], 0, []⟩ : St) 0 "X" =
        some (Value.inst "ImplA" 0, b1, s1)) :=
  c5_multi_binding_order
    [(⟨"ImplA", some ⟨[], RT.newInstance⟩, Hook.nohook⟩ : ClassDef),
     ⟨"ImplB", some ⟨[], RT.newInstance⟩, Hook.nohook⟩]
    "X" "ImplA" "ImplB"
    ⟨"ImplA", some ⟨[], RT.newInstance⟩, Hook.nohook⟩
    ⟨"ImplB", some ⟨[], RT.newInstance⟩, Hook.nohook⟩
    (by decide) (by decide) (by decide) (by decide) (by decide) (by decide)
    (⟨[⟨Option.none,
         [("X", [Producer.cls "ImplA", Producer.cls "ImplB"])],
         [("Container", Value.cref 0)]⟩], 0, []⟩ : St) 0
    (⟨Option.none,
       [("X", [Producer.cls "ImplA", Producer.cls "ImplB"])],
       [("Container", Value.cref 0)]⟩ : ContainerSt)
    (by decide) (by decide)

/-- C2 (amended): when a Singleton identifier already has a cached instance
visible from the requesting container (the container holds it or is a
descendant of the holder), resolve does return exactly that cached instance
and does not construct the identifier's class again — but the declared
dependencies are NOT skipped: resolveType runs the dependency phase before
it consults the cache, so the final state is the state produced by
re-resolving the full dependency list from the original state (all its
constructions and cache writes included), followed by the cache
re-write of the held instance. -/
theorem c2_cached_hit_reresolves_deps (prog : List ClassDef) (cn : String)
    (cd : ClassDef)
    (hcls : lookupCls prog cn = some cd)
    (hres : (cd.descr.getD defaultDescriptor).resolver = RT.singleton) :
    ∀ f s ct dsc cs v v2 b2 s2,
      regUnbound s cn = true →
      singHold cn ct v s = true →
      s.cont dsc = some cs →
      isDescOf s dsc ct = true →
      cn ∉ (statF prog cs.registry f
        (Req.deps (cd.descr.getD defaultDescriptor).inject)).1 →
      cn ∉ (statF prog cs.registry f
        (Req.deps (cd.descr.getD defaultDescriptor).inject)).2 →
      resolveSingle prog (f + 2) s dsc cn = some (v2, b2, s2) →
      v2 = v
        ∧ ctorCount cn s2.log = ctorCount cn s.log
        ∧ (∃ dv d1 s1m,
            resolveDeps prog f s dsc
                (cd.descr.getD defaultDescriptor).inject = some (dv, d1, s1m)
              ∧ s2 = setCacheSt s1m dsc RT.singleton cn v) := by
  have hext : extractDescr prog (Producer.cls cn) =
      some (cd.descr.getD defaultDescriptor) := by
    simp [extractDescr, hcls]
  intro f s ct dsc cs v v2 b2 s2 hreg hhold hcs hdesc hk1 hk2 h
  have htg : (lookupA cs.registry cn).getD [Producer.cls cn] =
      [Producer.cls cn] := by
    rw [regUnbound_spec s cn hreg dsc cs hcs]
    rfl
  obtain ⟨d, dv, d1, s1m, d2, s2m, hd, hdeps, hcore, hdfr, hs2⟩ :=
    resolveSingle_split prog f s dsc cn v2 b2 s2 cs (Producer.cls cn) [] hcs htg h
  have hdd : d = cd.descr.getD defaultDescriptor := by
    rw [hext] at hd
    exact (by simpa using hd : cd.descr.getD defaultDescriptor = d).symm
  subst hdd
  have hE := resolveF_eff prog f
    (Req.deps (cd.descr.getD defaultDescriptor).inject) s dsc cs dv d1 s1m
    hcs hdeps
  have hhold1 : singHold cn ct v s1m = true :=
    singHold_eff _ _ dsc s s1m d1 cn ct v cs hE hcs hk1 hhold
  have hchain1 : chainOf s1m dsc = chainOf s dsc := by
    obtain ⟨es, _, _, _, _, _, hother1, hself1, _⟩ := id hE
    apply chainOf_congr
    intro j hj
    by_cases hjd : j = dsc
    · subst hjd
      obtain ⟨cs1m, hcs1m, hp1m, _, _, _⟩ := hself1 cs hcs
      rw [hcs1m, hcs]
      simp [hp1m]
    · rw [hother1 j hjd]
  obtain ⟨hex1, hall1⟩ := singHold_spec cn ct v s1m hhold1
  have hmem : ct ∈ chainOf s1m dsc := by
    rw [hchain1]
    exact of_decide_eq_true hdesc
  have hread := chain_read s1m cn v hall1 dsc ct hmem hex1
  rw [hres] at hcore hs2
  rw [resolveCore_singleton_hit prog s1m dsc (Producer.cls cn) cn v
    hread.1 hread.2] at hcore
  simp only [Option.some.injEq, Prod.mk.injEq] at hcore
  obtain ⟨hv2e, hd2e, hs2me⟩ := hcore
  obtain ⟨es, hlog1, _, _, hescls, _, _, _, _⟩ := id hE
  refine ⟨hv2e.symm, ?_, dv, d1, s1m, hdeps, ?_⟩
  · rw [hs2, ← hs2me, setCacheSt_log, hlog1,
      ctorCount_append_none cn es s.log ?hne3]
    case hne3 =>
      intro e2 he2 hcl
      exact hk2 (hcl ▸ (hescls e2 he2).2.2)
  · rw [hs2, ← hs2me, ← hv2e]

/-- Witness for C2: X is a Singleton depending on D (a NewInstance class);
with X already cached (uid 1, constructed after the first D at uid 0), a
second resolve of X returns the cached instance, constructs no further X —
and still constructs a fresh D (uid 2): the dependency phase ran again
before the cache was consulted. -/
theorem c2_cached_hit_reresolves_deps_witness :
    (singHold "X" 0 (Value.inst "X" 1)
      (⟨[⟨Option.none, [],
           [("Container", Value.cref 0), ("X", Value.inst "X" 1)]⟩], 2,
        [⟨"X", 1, Hook.nohook⟩, ⟨"D", 0, Hook.nohook⟩]⟩ : St) = true)
    ∧ (∃ v2 b2 s2,
      resolveSingle
          [(⟨"X", some ⟨[⟨"D"⟩], RT.singleton⟩, Hook.nohook⟩ : ClassDef),
           ⟨"D", some ⟨[], RT.newInstance⟩, Hook.nohook⟩] 5
          (⟨[⟨Option.none, [],
               [("Container", Value.cref 0), ("X", Value.inst "X" 1)]⟩], 2,
            [⟨"X", 1, Hook.nohook⟩, ⟨"D", 0, Hook.nohook⟩]⟩ : St) 0 "X" =
        some (v2, b2, s2)
        ∧ v2 = Value.inst "X" 1
        ∧ ctorCount "X" s2.log = 1
        ∧ ctorCount "D" s2.log = 2) := by
  have hT := c2_cached_hit_reresolves_deps
    [(⟨"X", some ⟨[⟨"D"⟩], RT.singleton⟩, Hook.nohook⟩ : ClassDef),
     ⟨"D", some ⟨[], RT.newInstance⟩, Hook.nohook⟩] "X"
    ⟨"X", some ⟨[⟨"D"⟩], RT.singleton⟩, Hook.nohook⟩ (by decide) (by decide)
    3
    (⟨[⟨Option.none, [],
         [("Container", Value.cref 0), ("X", Value.inst "X" 1)]⟩], 2,
      [⟨"X", 1, Hook.nohook⟩, ⟨"D", 0, Hook.nohook⟩]⟩ : St)
    0 0
    (⟨Option.none, [],
       [("Container", Value.cref 0), ("X", Value.inst "X" 1)]⟩ : ContainerSt)
    (Value.inst "X" 1) (Value.inst "X" 1) false
    (⟨[⟨Option.none, [],
         [("Container", Value.cref 0), ("X", Value.inst "X" 1)]⟩], 3,
      [⟨"D", 2, Hook.nohook⟩, ⟨"X", 1, Hook.nohook⟩,
       ⟨"D", 0, Hook.nohook⟩]⟩ : St)
    (by decide) (by decide) (by decide) (by decide) (by decide) (by decide)
    (by decide)
  exact ⟨by decide,
    ⟨Value.inst "X" 1, false,
      (⟨[⟨Option.none, [],
           [("Container", Value.cref 0), ("X", Value.inst "X" 1)]⟩], 3,
        [⟨"D", 2, Hook.nohook⟩, ⟨"X", 1, Hook.nohook⟩,
         ⟨"D", 0, Hook.nohook⟩]⟩ : St),
      by decide, hT.1, by decide, by decide⟩⟩

/-- C7: a successful resolution returns a plain (non-deferred) value if and
only if no construction along the resolution path — the requested class or
any transitive dependency — carries an asynchronous post-construction hook:
the deferred flag of the result is true exactly when the list of
construction events appended to the log by this resolution contains an
event whose hook is asynchronous. -/
theorem c7_deferred_iff_async (prog : List ClassDef) :
    ∀ fuel s i c ident v dfr s2,
      s.cont i = some c →
      resolveSingle prog fuel s i ident = some (v, dfr, s2) →
      ∃ es, s2.log = es ++ s.log
        ∧ (dfr = true ↔ ∃ e ∈ es, e.hook = Hook.asyncHook) := by
  intro fuel s i c ident v dfr s2 hc h
  rw [resolveSingle] at h
  cases hF : resolveF prog fuel s i (Req.one ident) with
  | none => simp only [hF] at h; exact absurd h (by simp)
  | some r =>
    obtain ⟨vs, dfr1, s1⟩ := r
    simp only [hF] at h
    match vs, h with
    | [w], h =>
      simp only [Option.some.injEq, Prod.mk.injEq] at h
      obtain ⟨hw, hdfr, hs⟩ := h
      have hE := resolveF_eff prog fuel (Req.one ident) s i c [w] dfr1 s1 hc hF
      obtain ⟨es, hlog, hdf, _, _, _, _, _, _⟩ := hE
      refine ⟨es, ?_, ?_⟩
      · rw [← hs]
        exact hlog
      rw [← hdfr, hdf, List.any_eq_true]
      constructor
      · intro ⟨e, he, hd⟩
        exact ⟨e, he, of_decide_eq_true hd⟩
      · intro ⟨e, he, hd⟩
        exact ⟨e, he, decide_eq_true hd⟩

/-- Witness for C7: resolving the class Asy, whose post-construction hook is
asynchronous, returns a deferred result (flag true), and the events this
resolution appended to the log contain an asynchronous-hook construction. -/
theorem c7_deferred_iff_async_witness :
    (initSt.cont 0 = some (freshContainer Option.none 0))
    ∧ (resolveSingle [(⟨"Asy", Option.none, Hook.asyncHook⟩ : ClassDef)] 2
        initSt 0 "Asy" =
        some (Value.inst "Asy" 0, true,
          (⟨[⟨Option.none, [],
               [("Container", Value.cref 0), ("Asy", Value.inst "Asy" 0)]⟩], 1,
            [⟨"Asy", 0, Hook.asyncHook⟩]⟩ : St)))
    ∧ (∃ es,
        (⟨[⟨Option.none, [],
             [("Container", Value.cref 0), ("Asy", Value.inst "Asy" 0)]⟩], 1,
          [⟨"Asy", 0, Hook.asyncHook⟩]⟩ : St).log = es ++ initSt.log
        ∧ (true = true ↔ ∃ e ∈ es, e.hook = Hook.asyncHook)) :=
  ⟨by decide, by decide,
    c7_deferred_iff_async [(⟨"Asy", Option.none, Hook.asyncHook⟩ : ClassDef)]
      2 initSt 0 (freshContainer Option.none 0) "Asy" (Value.inst "Asy" 0) true
      (⟨[⟨Option.none, [],
           [("Container", Value.cref 0), ("Asy", Value.inst "Asy" 0)]⟩], 1,
        [⟨"Asy", 0, Hook.asyncHook⟩]⟩ : St)
      (by decide) (by decide)⟩

/-- In-place update by a function that fixes the stored element is the
identity. -/
theorem updL_id {α : Type} (f : α → α) :
    ∀ (i : Nat) (l : List α), (∀ a, l[i]? = some a → f a = a) →
      updL f i l = l := by
  intro i
  induction i with
  | zero =>
    intro l h
    cases l with
    | nil => rfl
    | cons a r =>
      show f a :: r = a :: r
      rw [h a (by simp)]
  | succ j ih =>
    intro l h
    cases l with
    | nil => rfl
    | cons a r =>
      show a :: updL f j r = a :: r
      rw [ih r (fun b hb => h b (by simpa using hb))]

/-- The root state satisfies the Container self-entry invariant. -/
theorem SelfEntry_initSt : SelfEntry initSt := by
  intro j cs h
  cases j with
  | zero =>
    have hcs : cs = freshContainer Option.none 0 := by
      have h' : (some (freshContainer Option.none 0) : Option ContainerSt) =
          some cs := h
      simpa using h'.symm
    subst hcs
    rfl
  | succ k =>
    exact absurd h (by simp [initSt, St.cont])

/-- child() preserves the Container self-entry invariant: the new container
is born with its own self-entry. -/
theorem SelfEntry_child (s : St) (i : Nat) (h : SelfEntry s) :
    SelfEntry (childC s i).1 := by
  intro j cs hj
  have hj' : (s.containers ++
      [freshContainer (some i) s.containers.length])[j]? = some cs := hj
  rw [List.getElem?_append] at hj'
  by_cases hlt : j < s.containers.length
  · rw [if_pos hlt] at hj'
    exact h j cs hj'
  · rw [if_neg hlt] at hj'
    cases hd : j - s.containers.length with
    | zero =>
      rw [hd] at hj'
      have hcs : cs = freshContainer (some i) s.containers.length := by
        simpa using hj'.symm
      subst hcs
      have hje : j = s.containers.length := by omega
      rw [hje]
      rfl
    | succ k =>
      rw [hd] at hj'
      exact absurd hj' (by simp)

/-- An in-place container update that keeps (or restores) the self-entry of
the updated container preserves the invariant. -/
theorem SelfEntry_updC (s : St) (i : Nat) (f : ContainerSt → ContainerSt)
    (h : SelfEntry s)
    (hf : ∀ c, s.cont i = some c →
      lookupA (f c).cache "Container" = some (Value.cref i)) :
    SelfEntry (updC s i f) := by
  intro j cs hj
  by_cases hij : j = i
  · subst hij
    rw [cont_updC_self] at hj
    cases hc : s.cont j with
    | none => rw [hc] at hj; exact absurd hj (by simp)
    | some c =>
      rw [hc] at hj
      have hcs : cs = f c := by simpa using hj.symm
      subst hcs
      exact hf c hc
  · rw [cont_updC_other s i j f hij] at hj
    exact h j cs hj

/-- A successful single resolution preserves the Container self-entry
invariant (ninth conjunct of the effect relation). -/
theorem SelfEntry_resolveSingle (prog : List ClassDef) (fuel : Nat) (s : St)
    (i : Nat) (ident : String) (v : Value) (dfr : Bool) (s2 : St)
    (h : resolveSingle prog fuel s i ident = some (v, dfr, s2))
    (hse : SelfEntry s) : SelfEntry s2 := by
  rw [resolveSingle] at h
  cases hF : resolveF prog fuel s i (Req.one ident) with
  | none => rw [hF] at h; exact absurd h (by simp)
  | some r =>
    obtain ⟨vs, dfr1, s1⟩ := r
    have hcont : ∃ c, s.cont i = some c := by
      cases fuel with
      | zero => simp [resolveF] at hF
      | succ f =>
        simp only [resolveF] at hF
        cases hc : s.cont i with
        | none => simp only [hc] at hF; exact absurd hF (by simp)
        | some c => exact ⟨c, rfl⟩
    obtain ⟨c, hc⟩ := hcont
    have hE := resolveF_eff prog fuel (Req.one ident) s i c vs dfr1 s1 hc hF
    obtain ⟨_, _, _, _, _, _, _, _, hkeep⟩ := hE
    have hs1 : s1 = s2 := by
      rw [hF] at h
      match vs, h with
      | [w], h =>
        simp only [Option.some.injEq, Prod.mk.injEq] at h
        exact h.2.2
    rw [← hs1]
    exact hkeep hse

/-- A successful multi-resolution preserves the Container self-entry
invariant. -/
theorem SelfEntry_resolveMany (prog : List ClassDef) (fuel : Nat) (s : St)
    (i : Nat) (ident : String) (vs : List Value) (dfr : Bool) (s2 : St)
    (h : resolveMany prog fuel s i ident = some (vs, dfr, s2))
    (hse : SelfEntry s) : SelfEntry s2 := by
  cases fuel with
  | zero => simp [resolveMany] at h
  | succ f =>
    simp only [resolveMany] at h
    cases hc : s.cont i with
    | none => simp only [hc] at h; exact absurd h (by simp)
    | some c =>
      simp only [hc] at h
      have hE := resolveF_eff prog f
        (Req.targets ((lookupA c.registry ident).getD [Producer.cls ident]))
        s i c vs dfr s2 hc h
      obtain ⟨_, _, _, _, _, _, _, _, hkeep⟩ := hE
      exact hkeep hse

/-- The states reachable from the root by the container API: creating child
containers, clearing, registering producers, and resolving. -/
inductive Reachable (prog : List ClassDef) : St → Prop
  | init : Reachable prog initSt
  | child (s : St) (i : Nat) : Reachable prog s → Reachable prog (childC s i).1
  | clear (s : St) (i : Nat) : Reachable prog s → Reachable prog (clearC s i)
  | reg (s : St) (i : Nat) (impl : Producer) (ident : String) :
      Reachable prog s → Reachable prog (registerAs s i impl ident)
  | regSelf (s : St) (i : Nat) (impl : Producer) :
      Reachable prog s → Reachable prog (registerAsSelf s i impl)
  | res (s : St) (fuel i : Nat) (ident : String) (v : Value) (dfr : Bool)
      (s2 : St) : Reachable prog s →
      resolveSingle prog fuel s i ident = some (v, dfr, s2) →
      Reachable prog s2
  | resAll (s : St) (fuel i : Nat) (ident : String) (vs : List Value)
      (dfr : Bool) (s2 : St) : Reachable prog s →
      resolveMany prog fuel s i ident = some (vs, dfr, s2) →
      Reachable prog s2

/-- C10: every container in every reachable state — the root, every child,
after any registrations, resolutions and clear() calls — holds a cache entry
under the key Container mapping to itself: the entry is inserted at
construction and re-inserted by clear().  Consequently get(Container) on any
container never returns nil (it returns the container itself, with or
without the parent walk), and resolving the Container class (present in the
class table with no attached descriptor and no registry binding for the
key) returns the requesting container itself, constructs nothing, and
leaves the state completely unchanged. -/
theorem c10_container_self_entry (prog : List ClassDef) :
    (∀ s, Reachable prog s → SelfEntry s)
    ∧ (∀ s, SelfEntry s → ∀ i c par, s.cont i = some c →
        getKeyC s i "Container" par = some (Value.cref i))
    ∧ (∀ cdC, lookupCls prog "Container" = some cdC →
        cdC.descr = Option.none →
        ∀ s i c, SelfEntry s → s.cont i = some c →
        lookupA c.registry "Container" = Option.none →
        resolveSingle prog 2 s i "Container" =
          some (Value.cref i, false, s)) := by
  refine ⟨?_, ?_, ?_⟩
  · intro s hr
    induction hr with
    | init => exact SelfEntry_initSt
    | child s i _ ih => exact SelfEntry_child s i ih
    | clear s i _ ih =>
      apply SelfEntry_updC s i _ ih
      intro c _
      simp [lookupA]
    | reg s i impl ident _ ih =>
      apply SelfEntry_updC s i _ ih
      intro c hc
      exact ih i c hc
    | regSelf s i impl _ ih =>
      apply SelfEntry_updC s i _ ih
      intro c hc
      exact ih i c hc
    | res s fuel i ident v dfr s2 _ hres ih =>
      exact SelfEntry_resolveSingle prog fuel s i ident v dfr s2 hres ih
    | resAll s fuel i ident vs dfr s2 _ hres ih =>
      exact SelfEntry_resolveMany prog fuel s i ident vs dfr s2 hres ih
  · intro s hse i c par hc
    exact getKeyC_hit s i "Container" par c (Value.cref i) hc (hse i c hc)
  · intro cdC hC hdC s i c hse hc hrg
    have hent : lookupA c.cache "Container" = some (Value.cref i) := hse i c hc
    have hext2 : extractDescr prog (Producer.cls "Container") =
        some defaultDescriptor := by
      simp [extractDescr, hC, hdC]
    have hone : resolveF prog 2 s i (Req.one "Container") =
        resolveF prog 1 s i (Req.typ (Producer.cls "Container") "Container") := by
      simp only [resolveF, hc, hrg, Option.getD_none]
    have hcore : resolveCore prog s i RT.singleton (Producer.cls "Container")
        "Container" = some (Value.cref i, false, s) :=
      resolveCore_singleton_hit prog s i (Producer.cls "Container") "Container"
        (Value.cref i)
        (hasKeyC_hit s i "Container" true c (Value.cref i) hc hent)
        (getKeyC_hit s i "Container" true c (Value.cref i) hc hent)
    have hset : setCacheSt s i RT.singleton "Container" (Value.cref i) = s := by
      rcases setCacheSt_cases s i RT.singleton "Container" (Value.cref i)
        with he | he
      · exact he
      · rw [he]
        have hupd : updL
            (fun c0 => { c0 with
              cache := setA "Container" (Value.cref i) c0.cache })
            i s.containers = s.containers := by
          apply updL_id
          intro a ha
          have hac : a = c := by
            have h2 : (some a : Option ContainerSt) = some c :=
              ha.symm.trans hc
            simpa using h2
          subst hac
          show ({ a with
            cache := setA "Container" (Value.cref i) a.cache } : ContainerSt) = a
          rw [setA_self "Container" (Value.cref i) a.cache hent]
        show ({ s with containers := (updL
          (fun c0 => { c0 with
            cache := setA "Container" (Value.cref i) c0.cache })
          i s.containers) } : St) = s
        rw [hupd]
    have hdr : defaultDescriptor.resolver = RT.singleton := rfl
    have hdeps0 : resolveF prog 0 s i (Req.deps defaultDescriptor.inject) =
        some ([], false, s) := resolveF_deps_nil_any prog 0 s i
    have htyp : resolveF prog 1 s i
        (Req.typ (Producer.cls "Container") "Container") =
        some ([Value.cref i], false, s) := by
      simp only [resolveF, hext2, hdeps0, hdr, hcore, Bool.false_or, hset]
    rw [resolveSingle, hone, htyp]

/-- Witness for C10: a child container is created and then cleared; it still
holds its Container self-entry, get(Container) on it returns the container
itself, and resolving the Container class on it returns the container with
the state unchanged. -/
theorem c10_container_self_entry_witness :
    SelfEntry (clearC (childC initSt 0).1 1)
    ∧ getKeyC (clearC (childC initSt 0).1 1) 1 "Container" true =
        some (Value.cref 1)
    ∧ resolveSingle [(⟨"Container", Option.none, Hook.nohook⟩ : ClassDef)] 2
        (clearC (childC initSt 0).1 1) 1 "Container" =
        some (Value.cref 1, false, clearC (childC initSt 0).1 1) := by
  have hse := (c10_container_self_entry
      [(⟨"Container", Option.none, Hook.nohook⟩ : ClassDef)]).1
    (clearC (childC initSt 0).1 1)
    (Reachable.clear (childC initSt 0).1 1
      (Reachable.child initSt 0 Reachable.init))
  refine ⟨hse, ?_, ?_⟩
  · exact (c10_container_self_entry
      [(⟨"Container", Option.none, Hook.nohook⟩ : ClassDef)]).2.1
      (clearC (childC initSt 0).1 1) hse 1
      ⟨some 0, [], [("Container", Value.cref 1)]⟩ true (by decide)
  · exact (c10_container_self_entry
      [(⟨"Container", Option.none, Hook.nohook⟩ : ClassDef)]).2.2
      ⟨"Container", Option.none, Hook.nohook⟩ (by decide) (by decide)
      (clearC (childC initSt 0).1 1) 1
      ⟨some 0, [], [("Container", Value.cref 1)]⟩ hse (by decide) (by decide)
